import Mathlib

/-!
Verification development for `@fal-works/deps-docs` (`src/bin.ts`).

The program is a batch utility: it reads `package.json`, merges the key sets
of `dependencies` and `devDependencies`, and for each package name copies
`node_modules/<name>/README.md` and any `licen[cs]e*`-matching files into
`<outdir>/<name>/`.

We model the filesystem shallowly: file contents are byte lists, paths are
lists of components, directories form a set. Node's `readFile(_, "utf-8")`
decodes bytes to a JS string (Unicode scalar values, with U+FFFD replacement
on malformed input) and `writeFile(_, s, "utf-8")` re-encodes, so file copy
is modelled as `encodeUtf8 ∘ decodeUtf8` on the byte content. Fallible I/O
is modelled with explicit failure sets (`readFails`, `writeFails`) in the
filesystem state; a `try/catch` in the source becomes a `match` on the
`Except` result.
-/

set_option autoImplicit false

namespace DepsDocs

/-! ## UTF-8 model

`decodeUtf8` models Node's UTF-8 decoding of a byte sequence into a sequence
of Unicode scalar values, replacing malformed subsequences with U+FFFD
(0xFFFD). `encodeUtf8` models UTF-8 encoding of a scalar-value sequence.
-/

/-- A UTF-8 continuation byte: `10xxxxxx`. -/
def IsCont (b : Nat) : Prop := 0x80 ≤ b ∧ b ≤ 0xBF

instance (b : Nat) : Decidable (IsCont b) := by unfold IsCont; infer_instance

/-- Admissible second byte of a three-byte sequence, given the lead byte
(WHATWG: `E0` requires `A0..BF`, `ED` requires `80..9F`). -/
def Cont3Ok (b0 b1 : Nat) : Prop :=
  if b0 = 0xE0 then 0xA0 ≤ b1 ∧ b1 ≤ 0xBF
  else if b0 = 0xED then 0x80 ≤ b1 ∧ b1 ≤ 0x9F
  else IsCont b1

instance (b0 b1 : Nat) : Decidable (Cont3Ok b0 b1) := by unfold Cont3Ok; infer_instance

/-- Admissible second byte of a four-byte sequence, given the lead byte
(WHATWG: `F0` requires `90..BF`, `F4` requires `80..8F`). -/
def Cont4Ok (b0 b1 : Nat) : Prop :=
  if b0 = 0xF0 then 0x90 ≤ b1 ∧ b1 ≤ 0xBF
  else if b0 = 0xF4 then 0x80 ≤ b1 ∧ b1 ≤ 0x8F
  else IsCont b1

instance (b0 b1 : Nat) : Decidable (Cont4Ok b0 b1) := by unfold Cont4Ok; infer_instance

/-- UTF-8 decoding with U+FFFD replacement of malformed subsequences. -/
def decodeUtf8 : List Nat → List Nat
  | [] => []
  | b0 :: bs =>
    if b0 < 0x80 then b0 :: decodeUtf8 bs
    else if 0xC2 ≤ b0 ∧ b0 ≤ 0xDF then
      match bs with
      | [] => [0xFFFD]
      | b1 :: bs1 =>
        if IsCont b1 then ((b0 - 0xC0) * 0x40 + (b1 - 0x80)) :: decodeUtf8 bs1
        else 0xFFFD :: decodeUtf8 (b1 :: bs1)
    else if 0xE0 ≤ b0 ∧ b0 ≤ 0xEF then
      match bs with
      | [] => [0xFFFD]
      | b1 :: bs1 =>
        if Cont3Ok b0 b1 then
          match bs1 with
          | [] => [0xFFFD]
          | b2 :: bs2 =>
            if IsCont b2 then
              ((b0 - 0xE0) * 0x1000 + (b1 - 0x80) * 0x40 + (b2 - 0x80)) :: decodeUtf8 bs2
            else 0xFFFD :: decodeUtf8 (b2 :: bs2)
        else 0xFFFD :: decodeUtf8 (b1 :: bs1)
    else if 0xF0 ≤ b0 ∧ b0 ≤ 0xF4 then
      match bs with
      | [] => [0xFFFD]
      | b1 :: bs1 =>
        if Cont4Ok b0 b1 then
          match bs1 with
          | [] => [0xFFFD]
          | b2 :: bs2 =>
            if IsCont b2 then
              match bs2 with
              | [] => [0xFFFD]
              | b3 :: bs3 =>
                if IsCont b3 then
                  ((b0 - 0xF0) * 0x40000 + (b1 - 0x80) * 0x1000 +
                    (b2 - 0x80) * 0x40 + (b3 - 0x80)) :: decodeUtf8 bs3
                else 0xFFFD :: decodeUtf8 (b3 :: bs3)
            else 0xFFFD :: decodeUtf8 (b2 :: bs2)
        else 0xFFFD :: decodeUtf8 (b1 :: bs1)
    else 0xFFFD :: decodeUtf8 bs

/-- UTF-8 encoding of a single Unicode scalar value. -/
def encodeScalar (v : Nat) : List Nat :=
  if v < 0x80 then [v]
  else if v < 0x800 then [0xC0 + v / 0x40, 0x80 + v % 0x40]
  else if v < 0x10000 then
    [0xE0 + v / 0x1000, 0x80 + v / 0x40 % 0x40, 0x80 + v % 0x40]
  else
    [0xF0 + v / 0x40000, 0x80 + v / 0x1000 % 0x40, 0x80 + v / 0x40 % 0x40, 0x80 + v % 0x40]

/-- UTF-8 encoding of a sequence of Unicode scalar values. -/
def encodeUtf8 : List Nat → List Nat
  | [] => []
  | v :: vs => encodeScalar v ++ encodeUtf8 vs

/-- A Unicode scalar value: below 0x110000 and not a surrogate. -/
def ValidScalar (v : Nat) : Prop := v < 0x110000 ∧ ¬ (0xD800 ≤ v ∧ v ≤ 0xDFFF)

instance (v : Nat) : Decidable (ValidScalar v) := by unfold ValidScalar; infer_instance

/-! ## Filesystem model -/

/-- A filesystem path, as a list of components relative to the filesystem root. -/
abbrev Path := List String

/-- Filesystem state. `files` maps paths to byte contents; `dirs` is the set of
existing directories. `readFails` (resp. `writeFails`) are the paths at which a
read (resp. write) throws, modelling I/O errors; both are fixed oracles that no
operation modifies. -/
structure FS where
  files : List (Path × List Nat)
  dirs : List Path
  readFails : List Path
  writeFails : List Path

deriving DecidableEq

/-- First-match association-list lookup on `files`. -/
def lookupFile : List (Path × List Nat) → Path → Option (List Nat)
  | [], _ => none
  | (q, c) :: rest, p => if q = p then some c else lookupFile rest p

/-- Store a byte content at a path: replace the first entry with that path in
place, or append a new entry at the end. -/
def setFile : List (Path × List Nat) → Path → List Nat → List (Path × List Nat)
  | [], p, c => [(p, c)]
  | (q, d) :: rest, p, c => if q = p then (p, c) :: rest else (q, d) :: setFile rest p c

/-- Add a directory to the directory set (no duplicates). -/
def addDir (ds : List Path) (d : Path) : List Path := if d ∈ ds then ds else d :: ds

/-- All nonempty ancestors of a path, shortest first, ending with the path
itself: the directories `mkdir(p, { recursive: true })` ensures exist. -/
def dirChain (p : Path) : List Path := (List.range p.length).map (fun i => p.take (i + 1))

/-- Models `mkdir(p, { recursive: true })`: create the directory and all parents. -/
def mkdirRec (fs : FS) (p : Path) : FS :=
  { fs with dirs := (dirChain p).foldl addDir fs.dirs }

/-- Models `access(p)`: it succeeds iff an entry (file or directory) exists at `p`;
`fileExists` in the source returns `true` exactly then. -/
def fileExists (fs : FS) (p : Path) : Bool :=
  (lookupFile fs.files p).isSome || decide (p ∈ fs.dirs)

/-- Models `readFile(p)` as raw bytes: throws if the read oracle fails at `p` or if no
file is at `p` (missing file, or a directory). -/
def readFileFS (fs : FS) (p : Path) : Except Unit (List Nat) :=
  if p ∈ fs.readFails then .error ()
  else
    match lookupFile fs.files p with
    | some c => .ok c
    | none => .error ()

/-- Models `readFile(p, "utf-8")`: read bytes, then decode to scalar values. -/
def readTextFS (fs : FS) (p : Path) : Except Unit (List Nat) :=
  (readFileFS fs p).map decodeUtf8

/-- Models `writeFile(p, text, "utf-8")`: encode and store, or throw per the oracle. -/
def writeFileFS (fs : FS) (p : Path) (text : List Nat) : Except Unit FS :=
  if p ∈ fs.writeFails then .error ()
  else .ok { fs with files := setFile fs.files p (encodeUtf8 text) }

/-- If `p = d ++ [x]`, return `some x`, else `none`: `p` names an immediate
child of directory `d`. -/
def childNameOf (d p : Path) : Option String :=
  if p.take d.length = d then
    match p.drop d.length with
    | [x] => some x
    | _ => none
  else none

/-- Remove duplicates, keeping first occurrences in order. -/
def dedupKeep (l : List String) : List String :=
  l.foldl (fun acc x => if x ∈ acc then acc else acc ++ [x]) []

/-- The names of the immediate children (files and directories) of `d`. -/
def childNames (fs : FS) (d : Path) : List String :=
  dedupKeep ((fs.files.map Prod.fst ++ fs.dirs).filterMap (childNameOf d))

/-- List a directory: `none` when the directory does not exist (the listing
throws), otherwise the names of its immediate children. -/
def listDir (fs : FS) (d : Path) : Option (List String) :=
  if d ∈ fs.dirs then some (childNames fs d) else none

/-! ## The program (translated from `src/bin.ts`) -/

/-- Does the lowercase form of `s` start with `pre`? -/
def lowerStarts (s pre : String) : Bool :=
  decide ((s.data.map Char.toLower).take pre.data.length = pre.data)

/-- Modelled from the spec: the matching behavior of Node's
`fs.promises.glob` (not part of this repository) on the literal pattern
`licen[cs]e*` used at `bin.ts:49`. Per the spec, matching is case-insensitive
on the prefix `licen[cs]e` and accepts any suffix: an entry name matches iff
its lowercase form starts with `license` or `licence`. -/
def isLicenseName (s : String) : Bool :=
  lowerStarts s "license" || lowerStarts s "licence"

/-- Models `getLicenseFiles(packageDir)`: glob `licen[cs]e*` over the immediate
children of `packageDir`; on failure (e.g. missing directory) return `[]`. -/
def getLicenseFiles (fs : FS) (packageDir : Path) : List String :=
  match listDir fs packageDir with
  | some names => names.filter isLicenseName
  | none => []

/-- One console line. `failedReadme`, `failedLicense` and `fatalError` are
`console.error` lines; the others are `console.log` lines. -/
inductive Msg
  | copiedReadme (pkg : String)
  | failedReadme (pkg : String)
  | copiedLicense (file pkg : String)
  | failedLicense (file pkg : String)
  | noFiles (pkg : String)
  | noDeps
  | summary (copied skipped : Nat) (outDir : Path)
  | fatalError

deriving DecidableEq

/-- Is a message the final summary line? -/
def Msg.isSummary : Msg → Bool
  | .summary _ _ _ => true
  | _ => false

/-- State threaded through `processDependency`: filesystem, console output so
far, and `filesCopiedCount`. -/
structure PDState where
  fs : FS
  msgs : List Msg
  count : Nat

deriving DecidableEq

/-- Translates `join(projectRoot, "node_modules", packageName)` (`bin.ts:71`). -/
def pkgDirOf (projectRoot : Path) (packageName : String) : Path :=
  projectRoot ++ ["node_modules", packageName]

/-- Translates `join(outDirPath, packageName)` (`bin.ts:72`). -/
def outDirOf (outDirPath : Path) (packageName : String) : Path :=
  outDirPath ++ [packageName]

/-- The body of the `for (const licenseFile of licenseFiles)` loop in
`processDependency`: read the license file, write it to the output directory,
log, and count; on failure log an error and continue. -/
def copyOneLicense (packageName : String) (packageDir outputDir : Path) (verbose : Bool)
    (st : PDState) (licenseFile : String) : PDState :=
  match readTextFS st.fs (packageDir ++ [licenseFile]) with
  | .error _ => { st with msgs := st.msgs ++ [.failedLicense licenseFile packageName] }
  | .ok content =>
    match writeFileFS st.fs (outputDir ++ [licenseFile]) content with
    | .error _ => { st with msgs := st.msgs ++ [.failedLicense licenseFile packageName] }
    | .ok fs' =>
      { fs := fs'
        msgs := st.msgs ++ (if verbose then [.copiedLicense licenseFile packageName] else [])
        count := st.count + 1 }

/-- Lines 77–91 of `bin.ts`: copy `README.md` if it exists; on read or write
failure log an error and continue. -/
def readmeStep (packageName : String) (readmePath readmeOutputPath : Path) (verbose : Bool)
    (st : PDState) : PDState :=
  if fileExists st.fs readmePath then
    match readTextFS st.fs readmePath with
    | .error _ => { st with msgs := st.msgs ++ [.failedReadme packageName] }
    | .ok content =>
      match writeFileFS st.fs readmeOutputPath content with
      | .error _ => { st with msgs := st.msgs ++ [.failedReadme packageName] }
      | .ok fs' =>
        { fs := fs'
          msgs := st.msgs ++ (if verbose then [.copiedReadme packageName] else [])
          count := st.count + 1 }
  else st

/-- Lines 93–108 of `bin.ts`: glob the license files of the package directory
and copy each in order. -/
def licenseStep (packageName : String) (packageDir outputDir : Path) (verbose : Bool)
    (st : PDState) : PDState :=
  (getLicenseFiles st.fs packageDir).foldl
    (copyOneLicense packageName packageDir outputDir verbose) st

/-- Lines 110–112 of `bin.ts`: in verbose mode, note when nothing was copied. -/
def noFilesStep (packageName : String) (verbose : Bool) (st : PDState) : PDState :=
  if st.count = 0 ∧ verbose then { st with msgs := st.msgs ++ [.noFiles packageName] }
  else st

/-- Translates `processDependency(packageName, outDirPath, verbose)`: create the output
subdirectory, copy `README.md` if it exists, copy all matched license files,
and return the number of files copied. -/
def processDependency (projectRoot : Path) (packageName : String) (outDirPath : Path)
    (verbose : Bool) (fs : FS) : PDState :=
  noFilesStep packageName verbose
    (licenseStep packageName (pkgDirOf projectRoot packageName)
      (outDirOf outDirPath packageName) verbose
      (readmeStep packageName (pkgDirOf projectRoot packageName ++ ["README.md"])
        (outDirOf outDirPath packageName ++ ["README.md"]) verbose
        ⟨mkdirRec fs (outDirOf outDirPath packageName), [], 0⟩))

/-- The parsed shape of `package.json`: two optional name→version records,
each modelled as a key/value list (absent field = empty list). -/
structure PackageJson where
  dependencies : List (String × String)
  devDependencies : List (String × String)

deriving DecidableEq

/-- Models `Object.keys({ ...a, ...b })` for JS objects with key lists `a` and `b`:
keys in first-insertion order, duplicates collapsed. -/
def mergedKeys (deps devDeps : List String) : List String :=
  (deps ++ devDeps).foldl (fun acc k => if k ∈ acc then acc else acc ++ [k]) []

/-- Result of `extractNpmReadmes` (and of the package loop): final filesystem,
console output, the two summary counters, and the trace of package names
processed, in order. -/
structure RunRes where
  fs : FS
  msgs : List Msg
  copied : Nat
  skipped : Nat
  procd : List String

deriving DecidableEq

/-- The `for (const packageName of Object.keys(allDependencies))` loop:
process each package sequentially, classifying it as copied
(`filesCopiedCount > 0`) or skipped. -/
def depLoop (projectRoot outDirPath : Path) (verbose : Bool) :
    List String → FS → RunRes
  | [], fs => ⟨fs, [], 0, 0, []⟩
  | k :: ks, fs =>
    let r := processDependency projectRoot k outDirPath verbose fs
    let rest := depLoop projectRoot outDirPath verbose ks r.fs
    ⟨rest.fs, r.msgs ++ rest.msgs,
      (if r.count > 0 then 1 else 0) + rest.copied,
      (if r.count > 0 then 0 else 1) + rest.skipped,
      k :: rest.procd⟩

/-- Lines 122–124 of `bin.ts`: read `<projectRoot>/package.json` and parse it.
`parseJson` is the `JSON.parse` oracle (not repository code): `none` models a
parse error. A read failure or parse failure yields `none` (a thrown error
propagating out of `extractNpmReadmes`). -/
def readManifest (projectRoot : Path) (parseJson : List Nat → Option PackageJson)
    (fs : FS) : Option PackageJson :=
  match readTextFS fs (projectRoot ++ ["package.json"]) with
  | .error _ => none
  | .ok text => parseJson text

/-- Translates `extractNpmReadmes(options)`: read and parse the manifest (throwing on
failure, modelled as `.error`), merge dependency keys, return early if none,
otherwise create the output root and process every package, ending with the
summary line. -/
def extractNpmReadmes (projectRoot : Path) (parseJson : List Nat → Option PackageJson)
    (outdir : Path) (verbose : Bool) (fs : FS) : Except Unit RunRes :=
  match readManifest projectRoot parseJson fs with
  | none => .error ()
  | some packageJson =>
    let keys := mergedKeys (packageJson.dependencies.map Prod.fst)
      (packageJson.devDependencies.map Prod.fst)
    if keys.isEmpty then
      .ok ⟨fs, if verbose then [.noDeps] else [], 0, 0, []⟩
    else
      let outDirPath := projectRoot ++ outdir
      let fs := mkdirRec fs outDirPath
      let r := depLoop projectRoot outDirPath verbose keys fs
      .ok ⟨r.fs, r.msgs ++ [.summary r.copied r.skipped outDirPath], r.copied, r.skipped,
        r.procd⟩

/-- The top level of `bin.ts`: run `extractNpmReadmes`; on a thrown error log
it and exit with code 1, otherwise the process exits with code 0. Returns
(exit code, final filesystem, console output). -/
def mainRun (projectRoot : Path) (parseJson : List Nat → Option PackageJson)
    (outdir : Path) (verbose : Bool) (fs : FS) : Nat × FS × List Msg :=
  match extractNpmReadmes projectRoot parseJson outdir verbose fs with
  | .ok r => (0, r.fs, r.msgs)
  | .error _ => (1, fs, [.fatalError])

/-! ## Auxiliary definitions for the verification: path order, agreement
outside the output zone, effect computations, and concrete witness fixtures. -/

/-- Path order: `leads d p` says `d` is an initial segment of `p` (the location `p` is at or
below the directory `d`). -/
def leads (d p : Path) : Prop := p.take d.length = d

instance (d p : Path) : Decidable (leads d p) := by unfold leads; infer_instance

/-- Applying a list of stores in order. -/
def applyWrites (l : List (Path × List Nat)) (ws : List (Path × List Nat)) :
    List (Path × List Nat) :=
  ws.foldl (fun acc pc => setFile acc pc.1 pc.2) l

/-- The path `<projectRoot>/node_modules`. -/
def nmRoot (projectRoot : Path) : Path := projectRoot ++ ["node_modules"]

def NmSame (pr : Path) (fs0 fs1 : FS) : Prop :=
  (∀ p, leads (nmRoot pr) p → lookupFile fs1.files p = lookupFile fs0.files p) ∧
  (∀ p, leads (nmRoot pr) p → (p ∈ fs1.dirs ↔ p ∈ fs0.dirs)) ∧
  (∀ d, leads (nmRoot pr) d → childNames fs1 d = childNames fs0 d) ∧
  fs1.readFails = fs0.readFails ∧ fs1.writeFails = fs0.writeFails

structure Eff where
  writes : List (Path × List Nat)
  msgs : List Msg
  cnt : Nat

/-- The effect of the README stage, reading from `fs0`. -/
def readmeEff (pr : Path) (k : String) (out : Path) (v : Bool) (fs0 : FS) : Eff :=
  if fileExists fs0 (pkgDirOf pr k ++ ["README.md"]) then
    match readTextFS fs0 (pkgDirOf pr k ++ ["README.md"]) with
    | .error _ => ⟨[], [.failedReadme k], 0⟩
    | .ok content =>
      if outDirOf out k ++ ["README.md"] ∈ fs0.writeFails then ⟨[], [.failedReadme k], 0⟩
      else ⟨[(outDirOf out k ++ ["README.md"], encodeUtf8 content)],
        if v then [.copiedReadme k] else [], 1⟩
  else ⟨[], [], 0⟩

/-- The effect of copying one license file, reading from `fs0`. -/
def licEffOne (k : String) (pd od : Path) (v : Bool) (fs0 : FS) (f : String) : Eff :=
  match readTextFS fs0 (pd ++ [f]) with
  | .error _ => ⟨[], [.failedLicense f k], 0⟩
  | .ok content =>
    if od ++ [f] ∈ fs0.writeFails then ⟨[], [.failedLicense f k], 0⟩
    else ⟨[(od ++ [f], encodeUtf8 content)], if v then [.copiedLicense f k] else [], 1⟩

/-- The combined effect of the license loop over a file list. -/
def licEff (k : String) (pd od : Path) (v : Bool) (fs0 : FS) : List String → Eff
  | [] => ⟨[], [], 0⟩
  | f :: fl =>
    ⟨(licEffOne k pd od v fs0 f).writes ++ (licEff k pd od v fs0 fl).writes,
      (licEffOne k pd od v fs0 f).msgs ++ (licEff k pd od v fs0 fl).msgs,
      (licEffOne k pd od v fs0 f).cnt + (licEff k pd od v fs0 fl).cnt⟩

/-- The full effect of `processDependency` for one package, reading from `fs0`. -/
def pdEff (pr : Path) (k : String) (out : Path) (v : Bool) (fs0 : FS) : Eff :=
  ⟨(readmeEff pr k out v fs0).writes ++
      (licEff k (pkgDirOf pr k) (outDirOf out k) v fs0
        (getLicenseFiles fs0 (pkgDirOf pr k))).writes,
    ((readmeEff pr k out v fs0).msgs ++
      (licEff k (pkgDirOf pr k) (outDirOf out k) v fs0
        (getLicenseFiles fs0 (pkgDirOf pr k))).msgs) ++
      (if (readmeEff pr k out v fs0).cnt +
          (licEff k (pkgDirOf pr k) (outDirOf out k) v fs0
            (getLicenseFiles fs0 (pkgDirOf pr k))).cnt = 0 ∧ v
        then [.noFiles k] else []),
    (readmeEff pr k out v fs0).cnt +
      (licEff k (pkgDirOf pr k) (outDirOf out k) v fs0
        (getLicenseFiles fs0 (pkgDirOf pr k))).cnt⟩

/-- The effect of the whole package loop, computed from `fs0`. -/
structure LoopEff where
  writes : List (Path × List Nat)
  msgs : List Msg
  copied : Nat
  skipped : Nat

def loopEff (pr out : Path) (v : Bool) (fs0 : FS) : List String → LoopEff
  | [] => ⟨[], [], 0, 0⟩
  | k :: ks =>
    ⟨(pdEff pr k out v fs0).writes ++ (loopEff pr out v fs0 ks).writes,
      (pdEff pr k out v fs0).msgs ++ (loopEff pr out v fs0 ks).msgs,
      (if (pdEff pr k out v fs0).cnt > 0 then 1 else 0) + (loopEff pr out v fs0 ks).copied,
      (if (pdEff pr k out v fs0).cnt > 0 then 0 else 1) + (loopEff pr out v fs0 ks).skipped⟩

/-- The directories ensured by the loop: one chain per package. -/
def outChains (out : Path) (ks : List String) (ds : List Path) : List Path :=
  ks.foldl (fun ds k => (dirChain (outDirOf out k)).foldl addDir ds) ds

def parseEmptyPJ : List Nat → Option PackageJson := fun _ => some ⟨[], []⟩

def fsManifestOnly : FS := ⟨[(["package.json"], [0x7B, 0x7D])], [], [], []⟩

def pjBoth : PackageJson := ⟨[("a", "1"), ("b", "1")], [("a", "2"), ("c", "3")]⟩

def parseBothPJ : List Nat → Option PackageJson := fun _ => some pjBoth

def parseOnePJ : List Nat → Option PackageJson := fun _ => some ⟨[("a", "1.0.0")], []⟩

def fsOnePkg : FS :=
  ⟨[(["package.json"], [0x7B, 0x7D]), (["node_modules", "a", "README.md"], [104, 105])],
    [["node_modules"], ["node_modules", "a"]], [], []⟩

def fsBare : FS := ⟨[], [], [], []⟩

def fsReadmeValid : FS :=
  ⟨[(["node_modules", "a", "README.md"], [104, 105])],
    [["node_modules"], ["node_modules", "a"]], [], []⟩

def fsReadmeInvalid : FS :=
  ⟨[(["node_modules", "a", "README.md"], [255])],
    [["node_modules"], ["node_modules", "a"]], [], []⟩

def fsTwoLicenses : FS :=
  ⟨[(["node_modules", "a", "license.md"], [76]), (["node_modules", "a", "LICENSE"], [77])],
    [["node_modules"], ["node_modules", "a"]], [], []⟩

def fsC7 : FS :=
  ⟨[(["node_modules", "a", "README.md"], [72]),
    (["node_modules", "a", "LICENSE"], [77]),
    (["node_modules", "a", "license.md"], [78])],
    [["node_modules"], ["node_modules", "a"]],
    [["node_modules", "a", "README.md"], ["node_modules", "a", "license.md"]], []⟩

def fsC7w : FS :=
  ⟨[(["node_modules", "a", "README.md"], [72]),
    (["node_modules", "a", "LICENSE"], [77]),
    (["node_modules", "a", "license.md"], [78])],
    [["node_modules"], ["node_modules", "a"]],
    [], [["docs-deps", "a", "README.md"], ["docs-deps", "a", "license.md"]]⟩

def fsC9 : FS :=
  ⟨[(["package.json"], [0x7B, 0x7D]),
    (["node_modules", "a", "README.md"], [104, 105]),
    (["node_modules", "a", "LICENSE"], [77])],
    [["node_modules"], ["node_modules", "a"]], [], []⟩

def parseC9 : List Nat → Option PackageJson := fun _ => some ⟨[("a", "1.0.0")], []⟩

/-! ## UTF-8 round trip -/

set_option maxRecDepth 8000

set_option maxHeartbeats 2000000

/-- Decoding an encoded scalar at the head of a byte stream recovers the
scalar and continues with the rest. -/
theorem decodeUtf8_encodeScalar_cons (v : Nat) (hv : ValidScalar v) (bs : List Nat) :
    decodeUtf8 (encodeScalar v ++ bs) = v :: decodeUtf8 bs := by
  obtain ⟨h1, h2⟩ := hv
  rw [encodeScalar]
  by_cases hA : v < 0x80
  · rw [if_pos hA]
    show decodeUtf8 (v :: bs) = v :: decodeUtf8 bs
    rw [decodeUtf8.eq_def]
    simp only [hA, if_pos]
  · rw [if_neg hA]
    by_cases hB : v < 0x800
    · rw [if_pos hB]
      show decodeUtf8 ((0xC0 + v / 0x40) :: (0x80 + v % 0x40) :: bs) = v :: decodeUtf8 bs
      rw [decodeUtf8.eq_def]
      simp only [IsCont, Cont3Ok, Cont4Ok]
      split_ifs <;> first | (exfalso; omega) | (congr 1; omega)
    · rw [if_neg hB]
      by_cases hC : v < 0x10000
      · rw [if_pos hC]
        show decodeUtf8
            ((0xE0 + v / 0x1000) :: (0x80 + v / 0x40 % 0x40) :: (0x80 + v % 0x40) :: bs) =
          v :: decodeUtf8 bs
        rw [decodeUtf8.eq_def]
        simp only [IsCont, Cont3Ok, Cont4Ok]
        split_ifs <;> first | (exfalso; omega) | (congr 1; omega)
      · rw [if_neg hC]
        show decodeUtf8
            ((0xF0 + v / 0x40000) :: (0x80 + v / 0x1000 % 0x40) ::
              (0x80 + v / 0x40 % 0x40) :: (0x80 + v % 0x40) :: bs) = v :: decodeUtf8 bs
        rw [decodeUtf8.eq_def]
        simp only [IsCont, Cont3Ok, Cont4Ok]
        split_ifs <;> first | (exfalso; omega) | (congr 1; omega)

/-- UTF-8 round trip: decoding the encoding of a sequence of Unicode scalar
values recovers the sequence. -/
theorem decodeUtf8_encodeUtf8 (s : List Nat) (h : ∀ v ∈ s, ValidScalar v) :
    decodeUtf8 (encodeUtf8 s) = s := by
  induction s with
  | nil => rfl
  | cons v vs ih =>
    rw [encodeUtf8, decodeUtf8_encodeScalar_cons v (h v (by simp)) (encodeUtf8 vs),
      ih (fun w hw => h w (by simp [hw]))]

/-! ## Path order -/

theorem leads_refl (p : Path) : leads p p := by simp [leads]

theorem leads_append (d e : Path) : leads d (d ++ e) := by
  simp [leads, List.take_left]

theorem leads.length_le {d p : Path} (h : leads d p) : d.length ≤ p.length := by
  have := congrArg List.length h
  simp only [List.length_take] at this
  omega

theorem leads.trans {a b c : Path} (h1 : leads a b) (h2 : leads b c) : leads a c := by
  have hl : a.length ≤ b.length := h1.length_le
  unfold leads at h1 h2 ⊢
  rw [← h2, List.take_take, Nat.min_eq_left hl] at h1
  exact h1

theorem leads.append_right {d p : Path} (h : leads d p) (e : Path) : leads d (p ++ e) := by
  have hl : d.length ≤ p.length := h.length_le
  unfold leads at h ⊢
  rw [List.take_append_of_le_length hl, h]

theorem leads_comparable {a b q : Path} (ha : leads a q) (hb : leads b q) :
    leads a b ∨ leads b a := by
  rcases Nat.le_total a.length b.length with h | h
  · left
    unfold leads at *
    rw [← hb, List.take_take, Nat.min_eq_left h, ha]
  · right
    unfold leads at *
    rw [← ha, List.take_take, Nat.min_eq_left h, hb]

theorem leads_take {p : Path} (n : Nat) : leads (p.take n) p := by
  induction p generalizing n with
  | nil => simp [leads]
  | cons a p ih =>
    cases n with
    | zero => simp [leads]
    | succ n =>
      rw [List.take_succ_cons]
      have ihn := ih n
      unfold leads at ihn ⊢
      simp only [List.length_cons, List.take_succ_cons, ihn]

/-- Concatenating a single element is injective in both arguments. -/
theorem concat_inj {a b : Path} {x y : String} (h : a ++ [x] = b ++ [y]) :
    a = b ∧ x = y := by
  have := congrArg List.reverse h
  simp only [List.reverse_append, List.reverse_cons, List.reverse_nil, List.nil_append,
    List.singleton_append, List.cons.injEq] at this
  obtain ⟨hx, ha⟩ := this
  exact ⟨by simpa using congrArg List.reverse ha, hx⟩

theorem leads_concat (d : Path) (x : String) : leads d (d ++ [x]) := leads_append d [x]

/-! ## Association-list lemmas -/

theorem lookupFile_setFile_self (l : List (Path × List Nat)) (p : Path) (c : List Nat) :
    lookupFile (setFile l p c) p = some c := by
  induction l with
  | nil => simp [setFile, lookupFile]
  | cons e rest ih =>
    obtain ⟨q, d⟩ := e
    by_cases h : q = p
    · simp [setFile, h, lookupFile]
    · simp [setFile, h, lookupFile, ih]

theorem lookupFile_setFile_ne (l : List (Path × List Nat)) {p q : Path} (c : List Nat)
    (h : q ≠ p) : lookupFile (setFile l p c) q = lookupFile l q := by
  induction l with
  | nil => simp only [setFile, lookupFile, if_neg (Ne.symm h)]
  | cons e rest ih =>
    obtain ⟨r, d⟩ := e
    by_cases hr : r = p
    · subst hr
      simp only [setFile, if_pos rfl, lookupFile, if_neg (Ne.symm h)]
    · simp only [setFile, if_neg hr, lookupFile]
      by_cases hq : r = q <;> simp [hq, ih]

theorem setFile_noop {l : List (Path × List Nat)} {p : Path} {c : List Nat}
    (h : lookupFile l p = some c) : setFile l p c = l := by
  induction l with
  | nil => simp [lookupFile] at h
  | cons e rest ih =>
    obtain ⟨q, d⟩ := e
    by_cases hq : q = p
    · subst hq
      simp [lookupFile] at h
      simp [setFile, h]
    · simp only [lookupFile, if_neg hq] at h
      simp [setFile, hq, ih h]

/-- The keys of `setFile l p c`: unchanged if `p` was present, else `p` is
appended at the end. -/
theorem keys_setFile (l : List (Path × List Nat)) (p : Path) (c : List Nat) :
    (setFile l p c).map Prod.fst =
      if p ∈ l.map Prod.fst then l.map Prod.fst else l.map Prod.fst ++ [p] := by
  induction l with
  | nil => simp [setFile]
  | cons e rest ih =>
    obtain ⟨q, d⟩ := e
    by_cases hq : q = p
    · subst hq
      simp [setFile]
    · have hpq : ¬ p = q := fun h => hq h.symm
      simp only [setFile, if_neg hq, List.map_cons, List.mem_cons, ih]
      by_cases hm : p ∈ rest.map Prod.fst
      · simp [hm, hpq]
      · simp [hm, hpq]

theorem applyWrites_nil (l : List (Path × List Nat)) : applyWrites l [] = l := rfl

theorem applyWrites_cons (l : List (Path × List Nat)) (pc : Path × List Nat)
    (ws : List (Path × List Nat)) :
    applyWrites l (pc :: ws) = applyWrites (setFile l pc.1 pc.2) ws := rfl

theorem applyWrites_append (l : List (Path × List Nat)) (w1 w2 : List (Path × List Nat)) :
    applyWrites l (w1 ++ w2) = applyWrites (applyWrites l w1) w2 := by
  simp [applyWrites, List.foldl_append]

theorem lookupFile_applyWrites_notmem {ws : List (Path × List Nat)}
    (l : List (Path × List Nat)) {p : Path} (h : p ∉ ws.map Prod.fst) :
    lookupFile (applyWrites l ws) p = lookupFile l p := by
  induction ws generalizing l with
  | nil => rfl
  | cons pc rest ih =>
    simp only [List.map_cons, List.mem_cons] at h
    push_neg at h
    rw [applyWrites_cons, ih _ h.2, lookupFile_setFile_ne _ _ h.1]

theorem lookupFile_applyWrites_mem {ws : List (Path × List Nat)}
    (l : List (Path × List Nat)) {p : Path} {c : List Nat}
    (hnd : (ws.map Prod.fst).Nodup) (hm : (p, c) ∈ ws) :
    lookupFile (applyWrites l ws) p = some c := by
  induction ws generalizing l with
  | nil => simp at hm
  | cons pc rest ih =>
    simp only [List.map_cons, List.nodup_cons] at hnd
    rcases List.mem_cons.mp hm with h | h
    · subst h
      rw [applyWrites_cons, lookupFile_applyWrites_notmem _ hnd.1,
        lookupFile_setFile_self]
    · exact applyWrites_cons l pc rest ▸ ih _ hnd.2 h

theorem applyWrites_noop {ws : List (Path × List Nat)} {l : List (Path × List Nat)}
    (h : ∀ pc ∈ ws, lookupFile l pc.1 = some pc.2) : applyWrites l ws = l := by
  induction ws with
  | nil => rfl
  | cons pc rest ih =>
    rw [applyWrites_cons, setFile_noop (h pc (by simp))]
    exact ih (fun pc' h' => h pc' (by simp [h']))

/-! ## Directory-set lemmas -/

theorem mem_addDir {ds : List Path} {d q : Path} : q ∈ addDir ds d ↔ q = d ∨ q ∈ ds := by
  unfold addDir
  split_ifs with h
  · exact ⟨fun hq => Or.inr hq, fun hq => hq.elim (fun e => e ▸ h) id⟩
  · simp [List.mem_cons]

theorem mem_foldl_addDir {l : List Path} {ds : List Path} {q : Path} :
    q ∈ l.foldl addDir ds ↔ q ∈ ds ∨ q ∈ l := by
  induction l generalizing ds with
  | nil => simp
  | cons d rest ih =>
    simp only [List.foldl_cons, ih, mem_addDir, List.mem_cons]
    tauto

theorem foldl_addDir_noop {l : List Path} {ds : List Path} (h : ∀ d ∈ l, d ∈ ds) :
    l.foldl addDir ds = ds := by
  induction l with
  | nil => rfl
  | cons d rest ih =>
    have hd : addDir ds d = ds := by simp [addDir, h d (by simp)]
    rw [List.foldl_cons, hd]
    exact ih (fun d' h' => h d' (by simp [h']))

theorem mem_dirChain {d p : Path} : d ∈ dirChain p ↔ ∃ i < p.length, d = p.take (i + 1) := by
  simp only [dirChain, List.mem_map, List.mem_range]
  constructor
  · rintro ⟨i, hi, rfl⟩; exact ⟨i, hi, rfl⟩
  · rintro ⟨i, hi, rfl⟩; exact ⟨i, hi, rfl⟩

theorem dirChain_leads {d p : Path} (h : d ∈ dirChain p) : leads d p := by
  obtain ⟨i, _, rfl⟩ := mem_dirChain.mp h
  exact leads_take (i + 1)

theorem self_mem_dirChain {p : Path} (h : p ≠ []) : p ∈ dirChain p := by
  rw [mem_dirChain]
  have hl : p.length ≠ 0 := by simpa using h
  exact ⟨p.length - 1, by omega,
    by rw [show p.length - 1 + 1 = p.length by omega, List.take_length]⟩

/-! ## Dedup and child-name lemmas -/

theorem dedupFold_mem (l : List String) (acc : List String) (x : String) :
    x ∈ l.foldl (fun acc y => if y ∈ acc then acc else acc ++ [y]) acc ↔
      x ∈ acc ∨ x ∈ l := by
  induction l generalizing acc with
  | nil => simp
  | cons y ys ih =>
    simp only [List.foldl_cons]
    by_cases hy : y ∈ acc
    · rw [if_pos hy, ih]
      simp only [List.mem_cons]
      constructor
      · rintro (h | h)
        exacts [Or.inl h, Or.inr (Or.inr h)]
      · rintro (h | rfl | h)
        exacts [Or.inl h, Or.inl hy, Or.inr h]
    · rw [if_neg hy, ih]
      simp only [List.mem_append, List.mem_singleton, List.mem_cons]
      tauto

theorem dedupFold_nodup (l : List String) (acc : List String) (h : acc.Nodup) :
    (l.foldl (fun acc y => if y ∈ acc then acc else acc ++ [y]) acc).Nodup := by
  induction l generalizing acc with
  | nil => exact h
  | cons y ys ih =>
    simp only [List.foldl_cons]
    by_cases hy : y ∈ acc
    · rw [if_pos hy]
      exact ih _ h
    · rw [if_neg hy]
      refine ih _ ?_
      simp [List.nodup_append, h, hy]

theorem mem_dedupKeep {l : List String} {x : String} : x ∈ dedupKeep l ↔ x ∈ l := by
  unfold dedupKeep
  rw [dedupFold_mem]
  simp

theorem dedupKeep_nodup (l : List String) : (dedupKeep l).Nodup :=
  dedupFold_nodup l [] (by simp)

theorem mem_mergedKeys {a b : List String} {x : String} :
    x ∈ mergedKeys a b ↔ x ∈ a ∨ x ∈ b := by
  unfold mergedKeys
  rw [dedupFold_mem]
  simp [List.mem_append]

theorem mergedKeys_nodup (a b : List String) : (mergedKeys a b).Nodup :=
  dedupFold_nodup (a ++ b) [] (by simp)

theorem childNameOf_eq_some {d p : Path} {x : String} :
    childNameOf d p = some x ↔ p = d ++ [x] := by
  unfold childNameOf
  constructor
  · intro h
    by_cases ht : p.take d.length = d
    · rw [if_pos ht] at h
      rcases hd : p.drop d.length with _ | ⟨y, ys⟩
      · rw [hd] at h
        simp at h
      · rcases ys with _ | ⟨z, zs⟩
        · rw [hd] at h
          simp only [Option.some.injEq] at h
          subst h
          rw [← List.take_append_drop d.length p, ht, hd]
        · rw [hd] at h
          simp at h
    · rw [if_neg ht] at h
      simp at h
  · rintro rfl
    rw [if_pos (List.take_left d [x])]
    have : (d ++ [x]).drop d.length = [x] := List.drop_left d [x]
    rw [this]

theorem childNameOf_self (d : Path) (x : String) : childNameOf d (d ++ [x]) = some x :=
  childNameOf_eq_some.mpr rfl

theorem mem_childNames {fs : FS} {d : Path} {x : String} :
    x ∈ childNames fs d ↔ (d ++ [x]) ∈ fs.files.map Prod.fst ∨ (d ++ [x]) ∈ fs.dirs := by
  unfold childNames
  rw [mem_dedupKeep, List.mem_filterMap]
  constructor
  · rintro ⟨p, hp, hcn⟩
    rw [childNameOf_eq_some] at hcn
    subst hcn
    exact List.mem_append.mp hp
  · rintro (h | h)
    · exact ⟨d ++ [x], List.mem_append.mpr (Or.inl h), childNameOf_self d x⟩
    · exact ⟨d ++ [x], List.mem_append.mpr (Or.inr h), childNameOf_self d x⟩

theorem childNames_nodup (fs : FS) (d : Path) : (childNames fs d).Nodup :=
  dedupKeep_nodup _

theorem childNames_setFile (fs : FS) {p : Path} (c : List Nat) (d : Path)
    (h : ∀ x, p ≠ d ++ [x]) :
    childNames { fs with files := setFile fs.files p c } d = childNames fs d := by
  have hnone : childNameOf d p = none := by
    cases hcn : childNameOf d p with
    | none => rfl
    | some x => exact absurd (childNameOf_eq_some.mp hcn) (h x)
  show dedupKeep _ = dedupKeep _
  rw [keys_setFile]
  by_cases hm : p ∈ fs.files.map Prod.fst
  · rw [if_pos hm]
  · rw [if_neg hm]
    congr 1
    simp [List.filterMap_append, hnone]

theorem childNames_addDir (fs : FS) {d' : Path} (d : Path) (h : ∀ x, d' ≠ d ++ [x]) :
    childNames { fs with dirs := addDir fs.dirs d' } d = childNames fs d := by
  have hnone : childNameOf d d' = none := by
    cases hcn : childNameOf d d' with
    | none => rfl
    | some x => exact absurd (childNameOf_eq_some.mp hcn) (h x)
  show dedupKeep _ = dedupKeep _
  unfold addDir
  split_ifs with hm
  · rfl
  · congr 1
    simp [List.filterMap_append, List.filterMap_cons, hnone]

/-! ## License-search lemmas -/

theorem listDir_none {fs : FS} {d : Path} (h : d ∉ fs.dirs) : listDir fs d = none := by
  simp [listDir, h]

theorem getLicenseFiles_of_listDir_none {fs : FS} {d : Path} (h : listDir fs d = none) :
    getLicenseFiles fs d = [] := by
  simp [getLicenseFiles, h]

theorem mem_getLicenseFiles {fs : FS} {d : Path} {f : String} (hd : d ∈ fs.dirs)
    (hf : f ∈ childNames fs d) (hl : isLicenseName f = true) :
    f ∈ getLicenseFiles fs d := by
  simp [getLicenseFiles, listDir, hd, List.mem_filter, hf, hl]

theorem getLicenseFiles_isLicense {fs : FS} {d : Path} {f : String}
    (h : f ∈ getLicenseFiles fs d) : isLicenseName f = true := by
  unfold getLicenseFiles listDir at h
  by_cases hd : d ∈ fs.dirs
  · rw [if_pos hd] at h
    exact (List.mem_filter.mp h).2
  · rw [if_neg hd] at h
    simp at h

theorem getLicenseFiles_nodup (fs : FS) (d : Path) : (getLicenseFiles fs d).Nodup := by
  unfold getLicenseFiles listDir
  by_cases hd : d ∈ fs.dirs
  · rw [if_pos hd]
    exact (childNames_nodup fs d).filter _
  · rw [if_neg hd]
    exact List.nodup_nil

theorem isLicense_ne_readme {f : String} (h : isLicenseName f = true) : f ≠ "README.md" := by
  intro heq
  rw [heq] at h
  exact absurd h (by decide)

/-! ## Outcome lemmas for the filesystem primitives -/

theorem readTextFS_of_some {fs : FS} {p : Path} {bytes : List Nat}
    (hnr : p ∉ fs.readFails) (hex : lookupFile fs.files p = some bytes) :
    readTextFS fs p = .ok (decodeUtf8 bytes) := by
  unfold readTextFS readFileFS
  rw [if_neg hnr, hex]
  rfl

theorem readTextFS_of_readfail {fs : FS} {p : Path} (hr : p ∈ fs.readFails) :
    readTextFS fs p = .error () := by
  unfold readTextFS readFileFS
  rw [if_pos hr]
  rfl

theorem writeFileFS_of_not_mem {fs : FS} {p : Path} (text : List Nat)
    (hw : p ∉ fs.writeFails) :
    writeFileFS fs p text = .ok { fs with files := setFile fs.files p (encodeUtf8 text) } := by
  unfold writeFileFS
  rw [if_neg hw]

theorem writeFileFS_of_mem {fs : FS} {p : Path} (text : List Nat)
    (hw : p ∈ fs.writeFails) : writeFileFS fs p text = .error () := by
  unfold writeFileFS
  rw [if_pos hw]

theorem writeFileFS_ok {fs : FS} {p : Path} {text : List Nat} {fs' : FS}
    (h : writeFileFS fs p text = .ok fs') :
    fs' = { fs with files := setFile fs.files p (encodeUtf8 text) } := by
  unfold writeFileFS at h
  split_ifs at h with hw
  all_goals injection h with h'
  exact h'.symm

theorem readTextFS_readFails {fs : FS} {p : Path} {t : List Nat}
    (h : readTextFS fs p = .ok t) : p ∉ fs.readFails := by
  intro hr
  rw [readTextFS_of_readfail hr] at h
  cases h

/-! ## Step lemmas for `processDependency`'s stages -/

theorem copyOneLicense_fs_shape (k : String) (pd od : Path) (v : Bool) (st : PDState)
    (f : String) :
    (copyOneLicense k pd od v st f).fs = st.fs ∨
      ∃ c, (copyOneLicense k pd od v st f).fs =
        { st.fs with files := setFile st.fs.files (od ++ [f]) (encodeUtf8 c) } := by
  unfold copyOneLicense
  split
  · exact Or.inl rfl
  · rename_i content heq
    split
    · exact Or.inl rfl
    · rename_i fs' heq'
      right
      refine ⟨content, ?_⟩
      show fs' = _
      exact writeFileFS_ok heq'

theorem copyOneLicense_files_frame (k : String) (pd od : Path) (v : Bool) (st : PDState)
    (f : String) {q : Path} (h : od ++ [f] ≠ q) :
    lookupFile (copyOneLicense k pd od v st f).fs.files q = lookupFile st.fs.files q := by
  rcases copyOneLicense_fs_shape k pd od v st f with hs | ⟨c, hs⟩
  · rw [hs]
  · rw [hs]
    exact lookupFile_setFile_ne _ _ (Ne.symm h)

theorem copyOneLicense_dirs_eq (k : String) (pd od : Path) (v : Bool) (st : PDState)
    (f : String) : (copyOneLicense k pd od v st f).fs.dirs = st.fs.dirs := by
  rcases copyOneLicense_fs_shape k pd od v st f with hs | ⟨c, hs⟩ <;> rw [hs]

theorem copyOneLicense_readFails_eq (k : String) (pd od : Path) (v : Bool) (st : PDState)
    (f : String) : (copyOneLicense k pd od v st f).fs.readFails = st.fs.readFails := by
  rcases copyOneLicense_fs_shape k pd od v st f with hs | ⟨c, hs⟩ <;> rw [hs]

theorem copyOneLicense_writeFails_eq (k : String) (pd od : Path) (v : Bool) (st : PDState)
    (f : String) : (copyOneLicense k pd od v st f).fs.writeFails = st.fs.writeFails := by
  rcases copyOneLicense_fs_shape k pd od v st f with hs | ⟨c, hs⟩ <;> rw [hs]

theorem copyOneLicense_msgs_ext (k : String) (pd od : Path) (v : Bool) (st : PDState)
    (f : String) {m : Msg} (h : m ∈ st.msgs) : m ∈ (copyOneLicense k pd od v st f).msgs := by
  unfold copyOneLicense
  split
  · simp [h]
  · split
    · simp [h]
    · simp [h]

theorem copyLicensesFold_files_frame (k : String) (pd od : Path) (v : Bool)
    (lf : List String) (st : PDState) {q : Path} (h : ∀ f ∈ lf, od ++ [f] ≠ q) :
    lookupFile (lf.foldl (copyOneLicense k pd od v) st).fs.files q =
      lookupFile st.fs.files q := by
  induction lf generalizing st with
  | nil => rfl
  | cons g gl ih =>
    rw [List.foldl_cons, ih _ (fun f hf => h f (by simp [hf])),
      copyOneLicense_files_frame k pd od v st g (h g (by simp))]

theorem copyLicensesFold_dirs_eq (k : String) (pd od : Path) (v : Bool)
    (lf : List String) (st : PDState) :
    (lf.foldl (copyOneLicense k pd od v) st).fs.dirs = st.fs.dirs := by
  induction lf generalizing st with
  | nil => rfl
  | cons g gl ih => rw [List.foldl_cons, ih, copyOneLicense_dirs_eq]

theorem copyLicensesFold_readFails_eq (k : String) (pd od : Path) (v : Bool)
    (lf : List String) (st : PDState) :
    (lf.foldl (copyOneLicense k pd od v) st).fs.readFails = st.fs.readFails := by
  induction lf generalizing st with
  | nil => rfl
  | cons g gl ih => rw [List.foldl_cons, ih, copyOneLicense_readFails_eq]

theorem copyLicensesFold_writeFails_eq (k : String) (pd od : Path) (v : Bool)
    (lf : List String) (st : PDState) :
    (lf.foldl (copyOneLicense k pd od v) st).fs.writeFails = st.fs.writeFails := by
  induction lf generalizing st with
  | nil => rfl
  | cons g gl ih => rw [List.foldl_cons, ih, copyOneLicense_writeFails_eq]

theorem copyLicensesFold_msgs_ext (k : String) (pd od : Path) (v : Bool)
    (lf : List String) (st : PDState) {m : Msg} (h : m ∈ st.msgs) :
    m ∈ (lf.foldl (copyOneLicense k pd od v) st).msgs := by
  induction lf generalizing st with
  | nil => exact h
  | cons g gl ih => exact List.foldl_cons .. ▸ ih _ (copyOneLicense_msgs_ext k pd od v st g h)

/-- A successful single license copy: the step writes the decoded-and-reencoded
content to the output path. -/
theorem copyOneLicense_success (k : String) (pd od : Path) (v : Bool) (st : PDState)
    (f : String) (bytes : List Nat)
    (hex : lookupFile st.fs.files (pd ++ [f]) = some bytes)
    (hnr : pd ++ [f] ∉ st.fs.readFails) (hnw : od ++ [f] ∉ st.fs.writeFails) :
    copyOneLicense k pd od v st f =
      ⟨{ st.fs with files := setFile st.fs.files (od ++ [f]) (encodeUtf8 (decodeUtf8 bytes)) },
        st.msgs ++ (if v then [.copiedLicense f k] else []), st.count + 1⟩ := by
  have hr := readTextFS_of_some hnr hex
  have hw := writeFileFS_of_not_mem (decodeUtf8 bytes) hnw
  simp only [copyOneLicense, hr, hw]

/-- A failing single license read: the step logs the error and changes nothing
else. -/
theorem copyOneLicense_readfail (k : String) (pd od : Path) (v : Bool) (st : PDState)
    (f : String) (hr : pd ++ [f] ∈ st.fs.readFails) :
    copyOneLicense k pd od v st f =
      { st with msgs := st.msgs ++ [.failedLicense f k] } := by
  have hr' := readTextFS_of_readfail hr
  simp only [copyOneLicense, hr']

/-- A failing single license copy, by a read failure or a write failure: in
either case the step logs the error and changes nothing else. -/
theorem copyOneLicense_fail (k : String) (pd od : Path) (v : Bool) (st : PDState)
    (f : String)
    (h : pd ++ [f] ∈ st.fs.readFails ∨ od ++ [f] ∈ st.fs.writeFails) :
    copyOneLicense k pd od v st f =
      { st with msgs := st.msgs ++ [.failedLicense f k] } := by
  rcases h with hr | hw
  · simp only [copyOneLicense, readTextFS_of_readfail hr]
  · cases hrt : readTextFS st.fs (pd ++ [f]) with
    | error e => simp only [copyOneLicense, hrt]
    | ok content => simp only [copyOneLicense, hrt, writeFileFS_of_mem content hw]

/-- Through the license loop, a matched license file whose read and write both
succeed ends up in the output directory with round-tripped content, whatever
else the loop does. -/
theorem copyLicensesFold_success (k : String) (pd od : Path) (v : Bool)
    (lf : List String) (st : PDState) (f : String) (bytes : List Nat)
    (hmem : f ∈ lf) (hnd : lf.Nodup)
    (hex : lookupFile st.fs.files (pd ++ [f]) = some bytes)
    (hnr : pd ++ [f] ∉ st.fs.readFails) (hnw : od ++ [f] ∉ st.fs.writeFails) :
    lookupFile (lf.foldl (copyOneLicense k pd od v) st).fs.files (od ++ [f]) =
      some (encodeUtf8 (decodeUtf8 bytes)) := by
  induction lf generalizing st with
  | nil => simp at hmem
  | cons g gl ih =>
    rw [List.foldl_cons]
    rcases List.mem_cons.mp hmem with rfl | hmem'
    · have hng : f ∉ gl := (List.nodup_cons.mp hnd).1
      rw [copyLicensesFold_files_frame k pd od v gl _
        (fun f' hf' heq => hng (by rwa [(concat_inj heq).2] at hf')),
        copyOneLicense_success k pd od v st f bytes hex hnr hnw]
      exact lookupFile_setFile_self _ _ _
    · have hgf : g ≠ f := by
        rintro rfl
        exact (List.nodup_cons.mp hnd).1 hmem'
      have hfr : lookupFile (copyOneLicense k pd od v st g).fs.files (pd ++ [f]) =
          some bytes := by
        rw [copyOneLicense_files_frame k pd od v st g
          (fun heq => hgf (concat_inj heq).2), hex]
      exact ih _ hmem' (List.nodup_cons.mp hnd).2 hfr
        (copyOneLicense_readFails_eq k pd od v st g ▸ hnr)
        (copyOneLicense_writeFails_eq k pd od v st g ▸ hnw)

/-- Through the license loop, a matched license file whose read fails produces
an error line, and the loop continues. -/
theorem copyLicensesFold_fail_msg (k : String) (pd od : Path) (v : Bool)
    (lf : List String) (st : PDState) (g : String)
    (hmem : g ∈ lf) (hr : pd ++ [g] ∈ st.fs.readFails) :
    Msg.failedLicense g k ∈ (lf.foldl (copyOneLicense k pd od v) st).msgs := by
  induction lf generalizing st with
  | nil => simp at hmem
  | cons h hl ih =>
    rw [List.foldl_cons]
    rcases List.mem_cons.mp hmem with rfl | hmem'
    · refine copyLicensesFold_msgs_ext k pd od v hl _ ?_
      rw [copyOneLicense_readfail k pd od v st g hr]
      simp
    · exact ih _ hmem' (copyOneLicense_readFails_eq k pd od v st h ▸ hr)

/-- Through the license loop, a matched license file whose read fails or whose
write fails produces an error line, and the loop continues. -/
theorem copyLicensesFold_failure_msg (k : String) (pd od : Path) (v : Bool)
    (lf : List String) (st : PDState) (g : String) (hmem : g ∈ lf)
    (h : pd ++ [g] ∈ st.fs.readFails ∨ od ++ [g] ∈ st.fs.writeFails) :
    Msg.failedLicense g k ∈ (lf.foldl (copyOneLicense k pd od v) st).msgs := by
  induction lf generalizing st with
  | nil => simp at hmem
  | cons f fl ih =>
    rw [List.foldl_cons]
    rcases List.mem_cons.mp hmem with rfl | hmem'
    · refine copyLicensesFold_msgs_ext k pd od v fl _ ?_
      rw [copyOneLicense_fail k pd od v st g h]
      simp
    · refine ih _ hmem' ?_
      rcases h with hr | hw
      · exact Or.inl (copyOneLicense_readFails_eq k pd od v st f ▸ hr)
      · exact Or.inr (copyOneLicense_writeFails_eq k pd od v st f ▸ hw)

/-! ## Step lemmas for the README stage -/

theorem readmeStep_fs_shape (k : String) (rp op : Path) (v : Bool) (st : PDState) :
    (readmeStep k rp op v st).fs = st.fs ∨
      ∃ c, (readmeStep k rp op v st).fs =
        { st.fs with files := setFile st.fs.files op (encodeUtf8 c) } := by
  unfold readmeStep
  split
  · split
    · exact Or.inl rfl
    · rename_i content heq
      split
      · exact Or.inl rfl
      · rename_i fs' heq'
        right
        exact ⟨content, by simp only [writeFileFS_ok heq']⟩
  · exact Or.inl rfl

theorem readmeStep_dirs_eq (k : String) (rp op : Path) (v : Bool) (st : PDState) :
    (readmeStep k rp op v st).fs.dirs = st.fs.dirs := by
  rcases readmeStep_fs_shape k rp op v st with hs | ⟨c, hs⟩ <;> rw [hs]

theorem readmeStep_readFails_eq (k : String) (rp op : Path) (v : Bool) (st : PDState) :
    (readmeStep k rp op v st).fs.readFails = st.fs.readFails := by
  rcases readmeStep_fs_shape k rp op v st with hs | ⟨c, hs⟩ <;> rw [hs]

theorem readmeStep_writeFails_eq (k : String) (rp op : Path) (v : Bool) (st : PDState) :
    (readmeStep k rp op v st).fs.writeFails = st.fs.writeFails := by
  rcases readmeStep_fs_shape k rp op v st with hs | ⟨c, hs⟩ <;> rw [hs]

theorem readmeStep_files_frame (k : String) (rp op : Path) (v : Bool) (st : PDState)
    {q : Path} (h : op ≠ q) :
    lookupFile (readmeStep k rp op v st).fs.files q = lookupFile st.fs.files q := by
  rcases readmeStep_fs_shape k rp op v st with hs | ⟨c, hs⟩
  · rw [hs]
  · rw [hs]
    exact lookupFile_setFile_ne _ _ (Ne.symm h)

/-- A successful README copy. -/
theorem readmeStep_success (k : String) (rp op : Path) (v : Bool) (st : PDState)
    (bytes : List Nat) (hex : lookupFile st.fs.files rp = some bytes)
    (hnr : rp ∉ st.fs.readFails) (hnw : op ∉ st.fs.writeFails) :
    readmeStep k rp op v st =
      ⟨{ st.fs with files := setFile st.fs.files op (encodeUtf8 (decodeUtf8 bytes)) },
        st.msgs ++ (if v then [.copiedReadme k] else []), st.count + 1⟩ := by
  have he : fileExists st.fs rp = true := by
    unfold fileExists
    rw [hex]
    simp
  have hr := readTextFS_of_some hnr hex
  have hw := writeFileFS_of_not_mem (decodeUtf8 bytes) hnw
  simp only [readmeStep, he, if_true, hr, hw]

/-- A failing README read: the error is logged, nothing else changes. -/
theorem readmeStep_readfail (k : String) (rp op : Path) (v : Bool) (st : PDState)
    (he : fileExists st.fs rp = true) (hr : rp ∈ st.fs.readFails) :
    readmeStep k rp op v st = { st with msgs := st.msgs ++ [.failedReadme k] } := by
  have hr' := readTextFS_of_readfail hr
  simp only [readmeStep, he, if_true, hr']

/-- A failing README copy, by a read failure or a write failure: in either
case the error is logged and nothing else changes. -/
theorem readmeStep_fail (k : String) (rp op : Path) (v : Bool) (st : PDState)
    (he : fileExists st.fs rp = true)
    (h : rp ∈ st.fs.readFails ∨ op ∈ st.fs.writeFails) :
    readmeStep k rp op v st = { st with msgs := st.msgs ++ [.failedReadme k] } := by
  rcases h with hr | hw
  · simp only [readmeStep, he, if_true, readTextFS_of_readfail hr]
  · cases hrt : readTextFS st.fs rp with
    | error e => simp only [readmeStep, he, if_true, hrt]
    | ok content => simp only [readmeStep, he, if_true, hrt, writeFileFS_of_mem content hw]

/-- A missing README: the stage does nothing. -/
theorem readmeStep_absent (k : String) (rp op : Path) (v : Bool) (st : PDState)
    (he : fileExists st.fs rp = false) : readmeStep k rp op v st = st := by
  simp only [readmeStep, he]
  simp

theorem readmeStep_count_le (k : String) (rp op : Path) (v : Bool) (st : PDState) :
    (readmeStep k rp op v st).count ≤ st.count + 1 := by
  unfold readmeStep
  split
  · split
    · exact Nat.le_succ _
    · split
      · exact Nat.le_succ _
      · exact Nat.le_refl _
  · exact Nat.le_succ _

theorem noFilesStep_fs_eq (k : String) (v : Bool) (st : PDState) :
    (noFilesStep k v st).fs = st.fs := by
  unfold noFilesStep
  split_ifs <;> rfl

theorem noFilesStep_count_eq (k : String) (v : Bool) (st : PDState) :
    (noFilesStep k v st).count = st.count := by
  unfold noFilesStep
  split_ifs <;> rfl

/-! ## Agreement on the `node_modules` zone

`NmSame pr fs0 fs1` says that `fs1` is indistinguishable from `fs0` for every
read the program performs below `<projectRoot>/node_modules`, and has the same
failure oracles. All the mutations of a run whose output root is separated
from `node_modules` preserve it. -/

theorem pkgDirOf_eq (pr : Path) (k : String) : pkgDirOf pr k = nmRoot pr ++ [k] := by
  simp [pkgDirOf, nmRoot]

theorem leads_nm_pkgDir (pr : Path) (k : String) : leads (nmRoot pr) (pkgDirOf pr k) := by
  rw [pkgDirOf_eq]
  exact leads_append _ _

theorem leads_nm_pkgFile (pr : Path) (k f : String) :
    leads (nmRoot pr) (pkgDirOf pr k ++ [f]) :=
  (leads_nm_pkgDir pr k).append_right [f]

theorem NmSame.refl (pr : Path) (fs : FS) : NmSame pr fs fs :=
  ⟨fun _ _ => rfl, fun _ _ => Iff.rfl, fun _ _ => rfl, rfl, rfl⟩

theorem NmSame.lookup {pr : Path} {fs0 fs1 : FS} (h : NmSame pr fs0 fs1) {p : Path}
    (hp : leads (nmRoot pr) p) : lookupFile fs1.files p = lookupFile fs0.files p := h.1 p hp

theorem NmSame.dirs_iff {pr : Path} {fs0 fs1 : FS} (h : NmSame pr fs0 fs1) {p : Path}
    (hp : leads (nmRoot pr) p) : p ∈ fs1.dirs ↔ p ∈ fs0.dirs := h.2.1 p hp

theorem NmSame.child {pr : Path} {fs0 fs1 : FS} (h : NmSame pr fs0 fs1) {d : Path}
    (hd : leads (nmRoot pr) d) : childNames fs1 d = childNames fs0 d := h.2.2.1 d hd

theorem NmSame.rf {pr : Path} {fs0 fs1 : FS} (h : NmSame pr fs0 fs1) :
    fs1.readFails = fs0.readFails := h.2.2.2.1

theorem NmSame.wf {pr : Path} {fs0 fs1 : FS} (h : NmSame pr fs0 fs1) :
    fs1.writeFails = fs0.writeFails := h.2.2.2.2

theorem NmSame.fileExists_eq {pr : Path} {fs0 fs1 : FS} (h : NmSame pr fs0 fs1) {p : Path}
    (hp : leads (nmRoot pr) p) : fileExists fs1 p = fileExists fs0 p := by
  unfold fileExists
  rw [h.lookup hp]
  by_cases hd : p ∈ fs0.dirs
  · have : p ∈ fs1.dirs := (h.dirs_iff hp).mpr hd
    simp [hd, this]
  · have : p ∉ fs1.dirs := fun hh => hd ((h.dirs_iff hp).mp hh)
    simp [hd, this]

theorem NmSame.readText_eq {pr : Path} {fs0 fs1 : FS} (h : NmSame pr fs0 fs1) {p : Path}
    (hp : leads (nmRoot pr) p) : readTextFS fs1 p = readTextFS fs0 p := by
  unfold readTextFS readFileFS
  rw [h.rf, h.lookup hp]

theorem NmSame.listDir_eq {pr : Path} {fs0 fs1 : FS} (h : NmSame pr fs0 fs1) {d : Path}
    (hd : leads (nmRoot pr) d) : listDir fs1 d = listDir fs0 d := by
  unfold listDir
  by_cases hm : d ∈ fs0.dirs
  · rw [if_pos hm, if_pos ((h.dirs_iff hd).mpr hm), h.child hd]
  · rw [if_neg hm, if_neg (fun hh => hm ((h.dirs_iff hd).mp hh))]

theorem NmSame.licenseFiles_eq {pr : Path} {fs0 fs1 : FS} (h : NmSame pr fs0 fs1) {d : Path}
    (hd : leads (nmRoot pr) d) : getLicenseFiles fs1 d = getLicenseFiles fs0 d := by
  unfold getLicenseFiles
  rw [h.listDir_eq hd]

theorem NmSame.setFile {pr : Path} {fs0 fs1 : FS} (h : NmSame pr fs0 fs1) {p : Path}
    {c : List Nat} (hp : ¬ leads (nmRoot pr) p) :
    NmSame pr fs0 { fs1 with files := setFile fs1.files p c } := by
  refine ⟨?_, fun q hq => h.dirs_iff hq, ?_, h.rf, h.wf⟩
  · intro q hq
    rw [lookupFile_setFile_ne _ _ (fun e => hp (by rw [← e]; exact hq))]
    exact h.lookup hq
  · intro d hd
    rw [childNames_setFile fs1 c d ?_]
    · exact h.child hd
    · intro x e
      refine hp ?_
      rw [e]
      exact hd.trans (leads_concat d x)

theorem NmSame.addDir {pr : Path} {fs0 fs1 : FS} (h : NmSame pr fs0 fs1) {d' : Path}
    (hd' : ¬ leads (nmRoot pr) d') :
    NmSame pr fs0 { fs1 with dirs := addDir fs1.dirs d' } := by
  refine ⟨fun q hq => h.lookup hq, ?_, ?_, h.rf, h.wf⟩
  · intro q hq
    show q ∈ DepsDocs.addDir fs1.dirs d' ↔ _
    rw [mem_addDir]
    constructor
    · rintro (rfl | hm)
      · exact absurd hq hd'
      · exact (h.dirs_iff hq).mp hm
    · intro hm
      exact Or.inr ((h.dirs_iff hq).mpr hm)
  · intro d hd
    rw [childNames_addDir fs1 d ?_]
    · exact h.child hd
    · intro x e
      refine hd' ?_
      rw [e]
      exact hd.trans (leads_concat d x)

theorem NmSame_foldDirs (pr : Path) (fs0 : FS) :
    ∀ (l : List Path) (fs1 : FS), NmSame pr fs0 fs1 →
      (∀ d ∈ l, ¬ leads (nmRoot pr) d) →
      NmSame pr fs0 { fs1 with dirs := l.foldl addDir fs1.dirs }
  | [], fs1, h, _ => h
  | d :: l, fs1, h, hl => by
    have h' := h.addDir (hl d (by simp))
    have hrec := NmSame_foldDirs pr fs0 l { fs1 with dirs := addDir fs1.dirs d } h'
      (fun d' hd' => hl d' (by simp [hd']))
    simpa [List.foldl_cons] using hrec

theorem NmSame.mkdir {pr : Path} {fs0 fs1 : FS} (h : NmSame pr fs0 fs1) {p : Path}
    (hp : ∀ d ∈ dirChain p, ¬ leads (nmRoot pr) d) :
    NmSame pr fs0 (mkdirRec fs1 p) :=
  NmSame_foldDirs pr fs0 (dirChain p) fs1 h hp

/-! ## Effect spec of one package's processing

`pdEff` computes, from the pre-run filesystem, the writes, console lines and
file count that `processDependency` produces. It mirrors the branch structure
of the code, reading from a fixed state. -/

/-! ## Separation consequences

`HS : ∀ q, leads (nmRoot pr) q → ¬ leads out q` says no location is below both
`node_modules` and the output root (they are prefix-incomparable). -/

theorem sep_not_nm_outfile {pr out : Path} (HS : ∀ q, leads (nmRoot pr) q → ¬ leads out q)
    (k : String) (e : Path) : ¬ leads (nmRoot pr) (outDirOf out k ++ e) := by
  intro hq
  exact HS _ hq ((leads_append out [k]).append_right e)

theorem sep_not_nm_outdir {pr out : Path} (HS : ∀ q, leads (nmRoot pr) q → ¬ leads out q)
    (k : String) : ¬ leads (nmRoot pr) (outDirOf out k) := by
  intro hq
  exact HS _ hq (leads_append out [k])

theorem sep_not_nm_chain {pr out : Path} (HS : ∀ q, leads (nmRoot pr) q → ¬ leads out q)
    (k : String) : ∀ d ∈ dirChain (outDirOf out k), ¬ leads (nmRoot pr) d := by
  intro d hd hnm
  exact sep_not_nm_outdir HS k (hnm.trans (dirChain_leads hd))

theorem sep_not_nm_chain_out {pr out : Path} (HS : ∀ q, leads (nmRoot pr) q → ¬ leads out q) :
    ∀ d ∈ dirChain out, ¬ leads (nmRoot pr) d := by
  intro d hd hnm
  exact HS out (hnm.trans (dirChain_leads hd)) (leads_refl out)

/-! ## Write-shape lemmas for the effect spec -/

theorem readmeEff_writes_shape (pr : Path) (k : String) (out : Path) (v : Bool) (fs0 : FS) :
    ∀ pc ∈ (readmeEff pr k out v fs0).writes, pc.1 = outDirOf out k ++ ["README.md"] := by
  unfold readmeEff
  split
  · split
    · simp
    · split
      · simp
      · intro pc hpc
        simp only [List.mem_singleton] at hpc
        rw [hpc]
  · simp

theorem licEffOne_writes_shape (k : String) (pd od : Path) (v : Bool) (fs0 : FS)
    (f : String) : ∀ pc ∈ (licEffOne k pd od v fs0 f).writes, pc.1 = od ++ [f] := by
  unfold licEffOne
  split
  · simp
  · split
    · simp
    · intro pc hpc
      simp only [List.mem_singleton] at hpc
      rw [hpc]

theorem licEff_writes_shape (k : String) (pd od : Path) (v : Bool) (fs0 : FS)
    (lf : List String) :
    ∀ pc ∈ (licEff k pd od v fs0 lf).writes, ∃ f ∈ lf, pc.1 = od ++ [f] := by
  induction lf with
  | nil => simp [licEff]
  | cons f fl ih =>
    intro pc hpc
    rcases List.mem_append.mp hpc with hm | hm
    · exact ⟨f, by simp, licEffOne_writes_shape k pd od v fs0 f pc hm⟩
    · obtain ⟨g, hg, hsh⟩ := ih pc hm
      exact ⟨g, by simp [hg], hsh⟩

theorem pdEff_writes_shape (pr : Path) (k : String) (out : Path) (v : Bool) (fs0 : FS) :
    ∀ pc ∈ (pdEff pr k out v fs0).writes, ∃ f, pc.1 = outDirOf out k ++ [f] := by
  intro pc hpc
  rcases List.mem_append.mp hpc with hm | hm
  · exact ⟨"README.md", readmeEff_writes_shape pr k out v fs0 pc hm⟩
  · obtain ⟨g, _, hsh⟩ := licEff_writes_shape k (pkgDirOf pr k) (outDirOf out k) v fs0 _ pc hm
    exact ⟨g, hsh⟩

theorem NmSame.applyW {pr : Path} {fs0 : FS} :
    ∀ (ws : List (Path × List Nat)) (fs1 : FS), NmSame pr fs0 fs1 →
      (∀ pc ∈ ws, ¬ leads (nmRoot pr) pc.1) →
      NmSame pr fs0 { fs1 with files := applyWrites fs1.files ws }
  | [], fs1, h, _ => h
  | pc :: ws, fs1, h, hws => by
    have h' := h.setFile (c := pc.2) (hws pc (by simp))
    have hrec := NmSame.applyW ws
      { fs1 with files := DepsDocs.setFile fs1.files pc.1 pc.2 } h'
      (fun pc' hpc' => hws pc' (by simp [hpc']))
    simpa [applyWrites_cons] using hrec

/-! ## Stage spec lemmas -/

/-- The README stage, from any filesystem agreeing with `fs0` on the
`node_modules` zone, applies exactly the writes/messages/count computed by
`readmeEff` on `fs0`. -/
theorem readmeStep_spec (pr : Path) (k : String) (out : Path) (v : Bool) (fs0 : FS)
    (fsx : FS) (m : List Msg) (n : Nat) (h : NmSame pr fs0 fsx) :
    readmeStep k (pkgDirOf pr k ++ ["README.md"]) (outDirOf out k ++ ["README.md"]) v
        ⟨fsx, m, n⟩ =
      ⟨{ fsx with files := applyWrites fsx.files (readmeEff pr k out v fs0).writes },
        m ++ (readmeEff pr k out v fs0).msgs, n + (readmeEff pr k out v fs0).cnt⟩ := by
  have hfe : fileExists fsx (pkgDirOf pr k ++ ["README.md"]) =
      fileExists fs0 (pkgDirOf pr k ++ ["README.md"]) :=
    h.fileExists_eq (leads_nm_pkgFile pr k "README.md")
  have ht : readTextFS fsx (pkgDirOf pr k ++ ["README.md"]) =
      readTextFS fs0 (pkgDirOf pr k ++ ["README.md"]) :=
    h.readText_eq (leads_nm_pkgFile pr k "README.md")
  cases he : fileExists fs0 (pkgDirOf pr k ++ ["README.md"]) with
  | false =>
    have hre : readmeEff pr k out v fs0 = ⟨[], [], 0⟩ := by
      unfold readmeEff
      rw [he]
      simp
    rw [hre]
    have habs : readmeStep k (pkgDirOf pr k ++ ["README.md"])
        (outDirOf out k ++ ["README.md"]) v ⟨fsx, m, n⟩ = ⟨fsx, m, n⟩ :=
      readmeStep_absent k _ _ v ⟨fsx, m, n⟩ (hfe.trans he)
    rw [habs]
    simp [applyWrites]
  | true =>
    cases hr : readTextFS fs0 (pkgDirOf pr k ++ ["README.md"]) with
    | error e =>
      have hre : readmeEff pr k out v fs0 = ⟨[], [.failedReadme k], 0⟩ := by
        unfold readmeEff
        rw [he]
        simp only [if_true, hr]
      have hstep : readmeStep k (pkgDirOf pr k ++ ["README.md"])
          (outDirOf out k ++ ["README.md"]) v ⟨fsx, m, n⟩ =
          ⟨fsx, m ++ [.failedReadme k], n⟩ := by
        simp only [readmeStep, hfe.trans he, if_true, ht.trans hr]
      rw [hstep, hre]
      simp [applyWrites]
    | ok c =>
      by_cases hw : outDirOf out k ++ ["README.md"] ∈ fs0.writeFails
      · have hre : readmeEff pr k out v fs0 = ⟨[], [.failedReadme k], 0⟩ := by
          unfold readmeEff
          rw [he]
          simp only [if_true, hr]
          rw [if_pos hw]
        have hwf : writeFileFS fsx (outDirOf out k ++ ["README.md"]) c = .error () := by
          have hw' : outDirOf out k ++ ["README.md"] ∈ fsx.writeFails := by
            rw [h.wf]
            exact hw
          unfold writeFileFS
          rw [if_pos hw']
        have hstep : readmeStep k (pkgDirOf pr k ++ ["README.md"])
            (outDirOf out k ++ ["README.md"]) v ⟨fsx, m, n⟩ =
            ⟨fsx, m ++ [.failedReadme k], n⟩ := by
          simp only [readmeStep, hfe.trans he, if_true, ht.trans hr, hwf]
        rw [hstep, hre]
        simp [applyWrites]
      · have hre : readmeEff pr k out v fs0 =
            ⟨[(outDirOf out k ++ ["README.md"], encodeUtf8 c)],
              if v then [.copiedReadme k] else [], 1⟩ := by
          unfold readmeEff
          rw [he]
          simp only [if_true, hr]
          rw [if_neg hw]
        have hwf : writeFileFS fsx (outDirOf out k ++ ["README.md"]) c =
            .ok { fsx with files := setFile fsx.files (outDirOf out k ++ ["README.md"]) (encodeUtf8 c) } := by
          have hw' : outDirOf out k ++ ["README.md"] ∉ fsx.writeFails := by
            rw [h.wf]
            exact hw
          unfold writeFileFS
          rw [if_neg hw']
        have hstep : readmeStep k (pkgDirOf pr k ++ ["README.md"])
            (outDirOf out k ++ ["README.md"]) v ⟨fsx, m, n⟩ =
            ⟨{ fsx with files := setFile fsx.files (outDirOf out k ++ ["README.md"]) (encodeUtf8 c) },
              m ++ (if v then [.copiedReadme k] else []), n + 1⟩ := by
          simp only [readmeStep, hfe.trans he, if_true, ht.trans hr, hwf]
        rw [hstep, hre]
        simp [applyWrites]

/-- The license loop, from any agreeing state, applies exactly the effect
computed by `licEff` on `fs0`. -/
theorem copyLicensesFold_spec (pr : Path) (k : String) (out : Path) (v : Bool) (fs0 : FS)
    (HS : ∀ q, leads (nmRoot pr) q → ¬ leads out q) (lf : List String) :
    ∀ (fsx : FS) (m : List Msg) (n : Nat), NmSame pr fs0 fsx →
      lf.foldl (copyOneLicense k (pkgDirOf pr k) (outDirOf out k) v) ⟨fsx, m, n⟩ =
        ⟨{ fsx with files := applyWrites fsx.files (licEff k (pkgDirOf pr k) (outDirOf out k) v fs0 lf).writes },
          m ++ (licEff k (pkgDirOf pr k) (outDirOf out k) v fs0 lf).msgs,
          n + (licEff k (pkgDirOf pr k) (outDirOf out k) v fs0 lf).cnt⟩ := by
  induction lf with
  | nil =>
    intro fsx m n h
    simp [licEff, applyWrites]
  | cons f fl ih =>
    intro fsx m n h
    rw [List.foldl_cons]
    have ht : readTextFS fsx (pkgDirOf pr k ++ [f]) =
        readTextFS fs0 (pkgDirOf pr k ++ [f]) :=
      h.readText_eq (leads_nm_pkgFile pr k f)
    cases hr : readTextFS fs0 (pkgDirOf pr k ++ [f]) with
    | error e =>
      have hone : licEffOne k (pkgDirOf pr k) (outDirOf out k) v fs0 f =
          ⟨[], [.failedLicense f k], 0⟩ := by
        simp only [licEffOne, hr]
      have hstep : copyOneLicense k (pkgDirOf pr k) (outDirOf out k) v ⟨fsx, m, n⟩ f =
          ⟨fsx, m ++ [.failedLicense f k], n⟩ := by
        simp only [copyOneLicense, ht.trans hr]
      rw [hstep, ih fsx (m ++ [Msg.failedLicense f k]) n h]
      simp [licEff, hone, List.append_assoc]
    | ok c =>
      by_cases hw : outDirOf out k ++ [f] ∈ fs0.writeFails
      · have hone : licEffOne k (pkgDirOf pr k) (outDirOf out k) v fs0 f =
            ⟨[], [.failedLicense f k], 0⟩ := by
          simp only [licEffOne, hr]
          rw [if_pos hw]
        have hwf : writeFileFS fsx (outDirOf out k ++ [f]) c = .error () := by
          have hw' : outDirOf out k ++ [f] ∈ fsx.writeFails := by
            rw [h.wf]
            exact hw
          unfold writeFileFS
          rw [if_pos hw']
        have hstep : copyOneLicense k (pkgDirOf pr k) (outDirOf out k) v ⟨fsx, m, n⟩ f =
            ⟨fsx, m ++ [.failedLicense f k], n⟩ := by
          simp only [copyOneLicense, ht.trans hr, hwf]
        rw [hstep, ih fsx (m ++ [Msg.failedLicense f k]) n h]
        simp [licEff, hone, List.append_assoc]
      · have hone : licEffOne k (pkgDirOf pr k) (outDirOf out k) v fs0 f =
            ⟨[(outDirOf out k ++ [f], encodeUtf8 c)],
              if v then [.copiedLicense f k] else [], 1⟩ := by
          simp only [licEffOne, hr]
          rw [if_neg hw]
        have hwf : writeFileFS fsx (outDirOf out k ++ [f]) c =
            .ok { fsx with files := setFile fsx.files (outDirOf out k ++ [f]) (encodeUtf8 c) } := by
          have hw' : outDirOf out k ++ [f] ∉ fsx.writeFails := by
            rw [h.wf]
            exact hw
          unfold writeFileFS
          rw [if_neg hw']
        have hstep : copyOneLicense k (pkgDirOf pr k) (outDirOf out k) v ⟨fsx, m, n⟩ f =
            ⟨{ fsx with files := setFile fsx.files (outDirOf out k ++ [f]) (encodeUtf8 c) },
              m ++ (if v then [.copiedLicense f k] else []), n + 1⟩ := by
          simp only [copyOneLicense, ht.trans hr, hwf]
        have hnm : ¬ leads (nmRoot pr) (outDirOf out k ++ [f]) :=
          sep_not_nm_outfile HS k [f]
        rw [hstep, ih { fsx with files := setFile fsx.files (outDirOf out k ++ [f]) (encodeUtf8 c) }
          (m ++ (if v then [Msg.copiedLicense f k] else [])) (n + 1) (h.setFile hnm)]
        simp [licEff, hone, applyWrites_cons, List.append_assoc, Nat.add_assoc,
          Nat.add_comm 1]

/-- The license stage, from any agreeing state, applies exactly the effect
computed by `licEff` on `fs0` over `fs0`'s match set. -/
theorem licenseStep_spec (pr : Path) (k : String) (out : Path) (v : Bool) (fs0 : FS)
    (HS : ∀ q, leads (nmRoot pr) q → ¬ leads out q)
    (fsx : FS) (m : List Msg) (n : Nat) (h : NmSame pr fs0 fsx) :
    licenseStep k (pkgDirOf pr k) (outDirOf out k) v ⟨fsx, m, n⟩ =
      ⟨{ fsx with files := applyWrites fsx.files (licEff k (pkgDirOf pr k) (outDirOf out k) v fs0 (getLicenseFiles fs0 (pkgDirOf pr k))).writes },
        m ++ (licEff k (pkgDirOf pr k) (outDirOf out k) v fs0 (getLicenseFiles fs0 (pkgDirOf pr k))).msgs,
        n + (licEff k (pkgDirOf pr k) (outDirOf out k) v fs0 (getLicenseFiles fs0 (pkgDirOf pr k))).cnt⟩ := by
  unfold licenseStep
  rw [show (⟨fsx, m, n⟩ : PDState).fs = fsx from rfl, h.licenseFiles_eq (leads_nm_pkgDir pr k)]
  exact copyLicensesFold_spec pr k out v fs0 HS _ fsx m n h

/-- Master characterization: from any state agreeing with `fs0` on the
`node_modules` zone, `processDependency` creates the output directory chain
and applies exactly the writes, messages and count computed by `pdEff` on
`fs0`. -/
theorem processDependency_spec (pr : Path) (k : String) (out : Path) (v : Bool)
    (fs0 : FS) (HS : ∀ q, leads (nmRoot pr) q → ¬ leads out q) (fs : FS)
    (h : NmSame pr fs0 fs) :
    processDependency pr k out v fs =
      ⟨⟨applyWrites fs.files (pdEff pr k out v fs0).writes,
          (dirChain (outDirOf out k)).foldl addDir fs.dirs,
          fs.readFails, fs.writeFails⟩,
        (pdEff pr k out v fs0).msgs, (pdEff pr k out v fs0).cnt⟩ := by
  have h0 : NmSame pr fs0 (mkdirRec fs (outDirOf out k)) :=
    h.mkdir (sep_not_nm_chain HS k)
  have h1 : NmSame pr fs0 { mkdirRec fs (outDirOf out k) with
      files := applyWrites (mkdirRec fs (outDirOf out k)).files
        (readmeEff pr k out v fs0).writes } :=
    NmSame.applyW _ _ h0 (fun pc hpc => by
      rw [readmeEff_writes_shape pr k out v fs0 pc hpc]
      exact sep_not_nm_outfile HS k ["README.md"])
  unfold processDependency
  rw [readmeStep_spec pr k out v fs0 (mkdirRec fs (outDirOf out k)) [] 0 h0,
    licenseStep_spec pr k out v fs0 HS _ _ _ h1]
  unfold noFilesStep pdEff
  simp only [mkdirRec, applyWrites_append, List.nil_append, Nat.zero_add, List.append_assoc]
  split_ifs with hc
  · rfl
  · simp

/-! ## Loop-level machinery -/

/-- Unfolding of the package loop at a cons cell. -/
theorem depLoop_cons (pr out : Path) (v : Bool) (k : String) (ks : List String) (fs : FS) :
    depLoop pr out v (k :: ks) fs =
      ⟨(depLoop pr out v ks (processDependency pr k out v fs).fs).fs,
        (processDependency pr k out v fs).msgs ++
          (depLoop pr out v ks (processDependency pr k out v fs).fs).msgs,
        (if (processDependency pr k out v fs).count > 0 then 1 else 0) +
          (depLoop pr out v ks (processDependency pr k out v fs).fs).copied,
        (if (processDependency pr k out v fs).count > 0 then 0 else 1) +
          (depLoop pr out v ks (processDependency pr k out v fs).fs).skipped,
        k :: (depLoop pr out v ks (processDependency pr k out v fs).fs).procd⟩ := rfl

theorem mem_outChains {out : Path} {ks : List String} {ds : List Path} {d : Path} :
    d ∈ outChains out ks ds ↔ d ∈ ds ∨ ∃ k ∈ ks, d ∈ dirChain (outDirOf out k) := by
  induction ks generalizing ds with
  | nil => simp [outChains]
  | cons k ks ih =>
    show d ∈ outChains out ks ((dirChain (outDirOf out k)).foldl addDir ds) ↔ _
    rw [ih, mem_foldl_addDir]
    constructor
    · rintro ((hd | hd) | ⟨k', hk', hd⟩)
      · exact Or.inl hd
      · exact Or.inr ⟨k, by simp, hd⟩
      · exact Or.inr ⟨k', by simp [hk'], hd⟩
    · rintro (hd | ⟨k', hk', hd⟩)
      · exact Or.inl (Or.inl hd)
      · rcases List.mem_cons.mp hk' with rfl | hk''
        · exact Or.inl (Or.inr hd)
        · exact Or.inr ⟨k', hk'', hd⟩

/-- Recursive directory creation is a no-op when the whole chain already exists. -/
theorem mkdirRec_noop {fs : FS} {p : Path} (h : ∀ d ∈ dirChain p, d ∈ fs.dirs) :
    mkdirRec fs p = fs := by
  unfold mkdirRec
  rw [foldl_addDir_noop h]

/-- A whole package's processing preserves agreement on the `node_modules`
zone. -/
theorem NmSame_pd (pr : Path) (k : String) (out : Path) (v : Bool) (fs0 : FS)
    (HS : ∀ q, leads (nmRoot pr) q → ¬ leads out q) {fs : FS} (h : NmSame pr fs0 fs) :
    NmSame pr fs0 (processDependency pr k out v fs).fs := by
  rw [processDependency_spec pr k out v fs0 HS fs h]
  have hA : NmSame pr fs0 { fs with dirs := (dirChain (outDirOf out k)).foldl addDir fs.dirs } :=
    NmSame_foldDirs pr fs0 _ fs h (sep_not_nm_chain HS k)
  have hB := NmSame.applyW (pdEff pr k out v fs0).writes _ hA (fun pc hpc => by
    obtain ⟨f, hf⟩ := pdEff_writes_shape pr k out v fs0 pc hpc
    rw [hf]
    exact sep_not_nm_outfile HS k [f])
  exact hB

/-- The whole loop preserves agreement on the `node_modules` zone. -/
theorem NmSame_depLoop (pr out : Path) (v : Bool) (fs0 : FS)
    (HS : ∀ q, leads (nmRoot pr) q → ¬ leads out q) :
    ∀ (ks : List String) {fs : FS}, NmSame pr fs0 fs →
      NmSame pr fs0 (depLoop pr out v ks fs).fs
  | [], _, h => h
  | k :: ks, fs, h => by
    rw [depLoop_cons]
    exact NmSame_depLoop pr out v fs0 HS ks (NmSame_pd pr k out v fs0 HS h)

/-- Loop spec: from an agreeing state, the loop applies exactly the writes and
directory chains computed by `loopEff`/`outChains` from `fs0`. -/
theorem depLoop_spec (pr out : Path) (v : Bool) (fs0 : FS)
    (HS : ∀ q, leads (nmRoot pr) q → ¬ leads out q) :
    ∀ (ks : List String) (fs : FS), NmSame pr fs0 fs →
      depLoop pr out v ks fs =
        ⟨⟨applyWrites fs.files (loopEff pr out v fs0 ks).writes,
            outChains out ks fs.dirs, fs.readFails, fs.writeFails⟩,
          (loopEff pr out v fs0 ks).msgs,
          (loopEff pr out v fs0 ks).copied, (loopEff pr out v fs0 ks).skipped, ks⟩ := by
  intro ks
  induction ks with
  | nil =>
    intro fs h
    show depLoop pr out v [] fs = _
    rw [show depLoop pr out v [] fs = ⟨fs, [], 0, 0, []⟩ from rfl]
    simp [loopEff, applyWrites, outChains]
  | cons k ks ih =>
    intro fs h
    rw [depLoop_cons, processDependency_spec pr k out v fs0 HS fs h]
    have hA : NmSame pr fs0 ⟨applyWrites fs.files (pdEff pr k out v fs0).writes,
        (dirChain (outDirOf out k)).foldl addDir fs.dirs, fs.readFails, fs.writeFails⟩ := by
      have h1 := NmSame_pd pr k out v fs0 HS h
      rwa [processDependency_spec pr k out v fs0 HS fs h] at h1
    rw [show (⟨⟨applyWrites fs.files (pdEff pr k out v fs0).writes,
        (dirChain (outDirOf out k)).foldl addDir fs.dirs, fs.readFails, fs.writeFails⟩,
        (pdEff pr k out v fs0).msgs, (pdEff pr k out v fs0).cnt⟩ : PDState).fs =
      ⟨applyWrites fs.files (pdEff pr k out v fs0).writes,
        (dirChain (outDirOf out k)).foldl addDir fs.dirs, fs.readFails, fs.writeFails⟩ from rfl,
      ih _ hA]
    simp only [loopEff, applyWrites_append]
    rfl

/-- Run-two stability: if an agreeing state already contains every write and
every directory the loop would produce, the loop leaves it unchanged. -/
theorem depLoop_stable (pr out : Path) (v : Bool) (fs0 : FS)
    (HS : ∀ q, leads (nmRoot pr) q → ¬ leads out q) :
    ∀ (ks : List String) (fs1 : FS), NmSame pr fs0 fs1 →
      (∀ k ∈ ks, ∀ pc ∈ (pdEff pr k out v fs0).writes,
        lookupFile fs1.files pc.1 = some pc.2) →
      (∀ k ∈ ks, ∀ d ∈ dirChain (outDirOf out k), d ∈ fs1.dirs) →
      (depLoop pr out v ks fs1).fs = fs1
  | [], fs1, _, _, _ => rfl
  | k :: ks, fs1, h, hw, hd => by
    have hpd : (processDependency pr k out v fs1).fs = fs1 := by
      rw [processDependency_spec pr k out v fs0 HS fs1 h]
      show FS.mk _ _ _ _ = fs1
      rw [applyWrites_noop (hw k (by simp)), foldl_addDir_noop (hd k (by simp))]
    rw [depLoop_cons]
    show (depLoop pr out v ks (processDependency pr k out v fs1).fs).fs = fs1
    rw [hpd]
    exact depLoop_stable pr out v fs0 HS ks fs1 h
      (fun k' hk' => hw k' (by simp [hk'])) (fun k' hk' => hd k' (by simp [hk']))

/-! ## Distinctness of write paths -/

theorem readmeEff_writes_cases (pr : Path) (k : String) (out : Path) (v : Bool) (fs0 : FS) :
    (readmeEff pr k out v fs0).writes = [] ∨
      ∃ c, (readmeEff pr k out v fs0).writes = [(outDirOf out k ++ ["README.md"], c)] := by
  unfold readmeEff
  split
  · split
    · exact Or.inl rfl
    · split
      · exact Or.inl rfl
      · rename_i c heq hw
        exact Or.inr ⟨encodeUtf8 c, rfl⟩
  · exact Or.inl rfl

theorem licEffOne_writes_cases (k : String) (pd od : Path) (v : Bool) (fs0 : FS)
    (f : String) :
    (licEffOne k pd od v fs0 f).writes = [] ∨
      ∃ c, (licEffOne k pd od v fs0 f).writes = [(od ++ [f], c)] := by
  unfold licEffOne
  split
  · exact Or.inl rfl
  · split
    · exact Or.inl rfl
    · rename_i c heq hw
      exact Or.inr ⟨encodeUtf8 c, rfl⟩

theorem licEff_paths_shape {k : String} {pd od : Path} {v : Bool} {fs0 : FS}
    {lf : List String} {p : Path}
    (h : p ∈ (licEff k pd od v fs0 lf).writes.map Prod.fst) : ∃ f ∈ lf, p = od ++ [f] := by
  obtain ⟨pc, hpc, rfl⟩ := List.mem_map.mp h
  exact licEff_writes_shape k pd od v fs0 lf pc hpc

theorem licEff_paths_nodup (k : String) (pd od : Path) (v : Bool) (fs0 : FS)
    {lf : List String} (hnd : lf.Nodup) :
    ((licEff k pd od v fs0 lf).writes.map Prod.fst).Nodup := by
  induction lf with
  | nil => simp [licEff]
  | cons f fl ih =>
    show ((licEffOne k pd od v fs0 f).writes ++
      (licEff k pd od v fs0 fl).writes).map Prod.fst |>.Nodup
    rw [List.map_append]
    rcases licEffOne_writes_cases k pd od v fs0 f with hc | ⟨c, hc⟩
    · rw [hc]
      exact ih (List.nodup_cons.mp hnd).2
    · rw [hc]
      show ((od ++ [f]) :: (licEff k pd od v fs0 fl).writes.map Prod.fst).Nodup
      rw [List.nodup_cons]
      refine ⟨?_, ih (List.nodup_cons.mp hnd).2⟩
      intro hm
      obtain ⟨g, hg, heq⟩ := licEff_paths_shape hm
      exact (List.nodup_cons.mp hnd).1 ((concat_inj heq).2 ▸ hg)

theorem pdEff_paths_nodup (pr : Path) (k : String) (out : Path) (v : Bool) (fs0 : FS) :
    ((pdEff pr k out v fs0).writes.map Prod.fst).Nodup := by
  show ((readmeEff pr k out v fs0).writes ++
    (licEff k (pkgDirOf pr k) (outDirOf out k) v fs0
      (getLicenseFiles fs0 (pkgDirOf pr k))).writes).map Prod.fst |>.Nodup
  rw [List.map_append]
  have hlnd := licEff_paths_nodup k (pkgDirOf pr k) (outDirOf out k) v fs0
    (getLicenseFiles_nodup fs0 (pkgDirOf pr k))
  rcases readmeEff_writes_cases pr k out v fs0 with hc | ⟨c, hc⟩
  · rw [hc]
    exact hlnd
  · rw [hc]
    show ((outDirOf out k ++ ["README.md"]) :: _).Nodup
    rw [List.nodup_cons]
    refine ⟨?_, hlnd⟩
    intro hm
    obtain ⟨g, hg, heq⟩ := licEff_paths_shape hm
    exact isLicense_ne_readme (getLicenseFiles_isLicense hg) (concat_inj heq.symm).2

theorem outfile_inj {out : Path} {k k' f f' : String}
    (h : outDirOf out k ++ [f] = outDirOf out k' ++ [f']) : k = k' ∧ f = f' := by
  have e1 : outDirOf out k ++ [f] = out ++ [k, f] := by simp [outDirOf]
  have e2 : outDirOf out k' ++ [f'] = out ++ [k', f'] := by simp [outDirOf]
  rw [e1, e2] at h
  have h2 := congrArg (List.drop out.length) h
  rw [List.drop_left, List.drop_left] at h2
  simp only [List.cons.injEq, and_true] at h2
  exact h2

theorem loopEff_writes_shape {pr out : Path} {v : Bool} {fs0 : FS} :
    ∀ {ks : List String} {pc : Path × List Nat}, pc ∈ (loopEff pr out v fs0 ks).writes →
      ∃ k ∈ ks, ∃ f, pc.1 = outDirOf out k ++ [f] := by
  intro ks
  induction ks with
  | nil => simp [loopEff]
  | cons k ks ih =>
    intro pc hpc
    rcases List.mem_append.mp hpc with hm | hm
    · obtain ⟨f, hf⟩ := pdEff_writes_shape pr k out v fs0 pc hm
      exact ⟨k, by simp, f, hf⟩
    · obtain ⟨k', hk', f, hf⟩ := ih hm
      exact ⟨k', by simp [hk'], f, hf⟩

theorem mem_loopEff_writes {pr out : Path} {v : Bool} {fs0 : FS} :
    ∀ {ks : List String} {k : String} {pc : Path × List Nat}, k ∈ ks →
      pc ∈ (pdEff pr k out v fs0).writes → pc ∈ (loopEff pr out v fs0 ks).writes := by
  intro ks
  induction ks with
  | nil => simp
  | cons k' ks ih =>
    intro k pc hk hpc
    rcases List.mem_cons.mp hk with rfl | hk'
    · exact List.mem_append.mpr (Or.inl hpc)
    · exact List.mem_append.mpr (Or.inr (ih hk' hpc))

theorem loopEff_paths_nodup (pr out : Path) (v : Bool) (fs0 : FS) :
    ∀ {ks : List String}, ks.Nodup → ((loopEff pr out v fs0 ks).writes.map Prod.fst).Nodup := by
  intro ks
  induction ks with
  | nil => simp [loopEff]
  | cons k ks ih =>
    intro hnd
    show ((pdEff pr k out v fs0).writes ++ (loopEff pr out v fs0 ks).writes).map
      Prod.fst |>.Nodup
    rw [List.map_append, List.nodup_append]
    refine ⟨pdEff_paths_nodup pr k out v fs0, ih (List.nodup_cons.mp hnd).2, ?_⟩
    intro p hp1 hp2
    obtain ⟨pc, hpc, rfl⟩ := List.mem_map.mp hp1
    obtain ⟨f, hf⟩ := pdEff_writes_shape pr k out v fs0 pc hpc
    obtain ⟨pc', hpc', heq2⟩ := List.mem_map.mp hp2
    obtain ⟨k', hk', f', hf'⟩ := loopEff_writes_shape hpc'
    have heq3 : outDirOf out k' ++ [f'] = outDirOf out k ++ [f] := by
      rw [← hf', heq2, hf]
    exact (List.nodup_cons.mp hnd).1 ((outfile_inj heq3).1 ▸ hk')

/-! ## Manifest and extract equations -/

theorem readManifest_eq_of (pr : Path) (parseJson : List Nat → Option PackageJson)
    {fsA fsB : FS}
    (hf : lookupFile fsA.files (pr ++ ["package.json"]) =
      lookupFile fsB.files (pr ++ ["package.json"]))
    (hr : fsA.readFails = fsB.readFails) :
    readManifest pr parseJson fsA = readManifest pr parseJson fsB := by
  unfold readManifest readTextFS readFileFS
  rw [hf, hr]

theorem extract_err {pr : Path} {parseJson : List Nat → Option PackageJson}
    {outdir : Path} {v : Bool} {fs : FS}
    (h : readManifest pr parseJson fs = none) :
    extractNpmReadmes pr parseJson outdir v fs = .error () := by
  unfold extractNpmReadmes
  rw [h]

theorem extract_empty {pr : Path} {parseJson : List Nat → Option PackageJson}
    {outdir : Path} {v : Bool} {fs : FS} {pj : PackageJson}
    (h : readManifest pr parseJson fs = some pj)
    (hk : mergedKeys (pj.dependencies.map Prod.fst) (pj.devDependencies.map Prod.fst) = []) :
    extractNpmReadmes pr parseJson outdir v fs =
      .ok ⟨fs, if v then [.noDeps] else [], 0, 0, []⟩ := by
  unfold extractNpmReadmes
  rw [h]
  simp [hk]

theorem extract_nonempty {pr : Path} {parseJson : List Nat → Option PackageJson}
    {outdir : Path} {v : Bool} {fs : FS} {pj : PackageJson}
    (h : readManifest pr parseJson fs = some pj)
    (hk : mergedKeys (pj.dependencies.map Prod.fst) (pj.devDependencies.map Prod.fst) ≠ []) :
    extractNpmReadmes pr parseJson outdir v fs =
      .ok ⟨(depLoop pr (pr ++ outdir) v
          (mergedKeys (pj.dependencies.map Prod.fst) (pj.devDependencies.map Prod.fst))
          (mkdirRec fs (pr ++ outdir))).fs,
        (depLoop pr (pr ++ outdir) v
          (mergedKeys (pj.dependencies.map Prod.fst) (pj.devDependencies.map Prod.fst))
          (mkdirRec fs (pr ++ outdir))).msgs ++
          [.summary
            (depLoop pr (pr ++ outdir) v
              (mergedKeys (pj.dependencies.map Prod.fst) (pj.devDependencies.map Prod.fst))
              (mkdirRec fs (pr ++ outdir))).copied
            (depLoop pr (pr ++ outdir) v
              (mergedKeys (pj.dependencies.map Prod.fst) (pj.devDependencies.map Prod.fst))
              (mkdirRec fs (pr ++ outdir))).skipped
            (pr ++ outdir)],
        (depLoop pr (pr ++ outdir) v
          (mergedKeys (pj.dependencies.map Prod.fst) (pj.devDependencies.map Prod.fst))
          (mkdirRec fs (pr ++ outdir))).copied,
        (depLoop pr (pr ++ outdir) v
          (mergedKeys (pj.dependencies.map Prod.fst) (pj.devDependencies.map Prod.fst))
          (mkdirRec fs (pr ++ outdir))).skipped,
        (depLoop pr (pr ++ outdir) v
          (mergedKeys (pj.dependencies.map Prod.fst) (pj.devDependencies.map Prod.fst))
          (mkdirRec fs (pr ++ outdir))).procd⟩ := by
  unfold extractNpmReadmes
  rw [h]
  have hke : (mergedKeys (pj.dependencies.map Prod.fst)
      (pj.devDependencies.map Prod.fst)).isEmpty = false := by
    cases hke2 : (mergedKeys (pj.dependencies.map Prod.fst)
        (pj.devDependencies.map Prod.fst)).isEmpty
    · rfl
    · exact absurd (List.isEmpty_iff.mp hke2) hk
  simp [hke]

/-! ## Loop counting and message facts -/

theorem depLoop_counts (pr out : Path) (v : Bool) :
    ∀ (ks : List String) (fs : FS),
      (depLoop pr out v ks fs).copied + (depLoop pr out v ks fs).skipped = ks.length
  | [], fs => rfl
  | k :: ks, fs => by
    rw [depLoop_cons]
    show ((if (processDependency pr k out v fs).count > 0 then 1 else 0) + _) +
      ((if (processDependency pr k out v fs).count > 0 then 0 else 1) + _) = _
    have := depLoop_counts pr out v ks (processDependency pr k out v fs).fs
    by_cases hc : (processDependency pr k out v fs).count > 0 <;>
      simp [hc, List.length_cons] <;> omega

theorem depLoop_procd (pr out : Path) (v : Bool) :
    ∀ (ks : List String) (fs : FS), (depLoop pr out v ks fs).procd = ks
  | [], _ => rfl
  | k :: ks, fs => by
    rw [depLoop_cons]
    show k :: (depLoop pr out v ks (processDependency pr k out v fs).fs).procd = _
    rw [depLoop_procd pr out v ks]

theorem readmeStep_msgs_shape (k : String) (rp op : Path) (v : Bool) (st : PDState)
    {m : Msg} (h : m ∈ (readmeStep k rp op v st).msgs) :
    m ∈ st.msgs ∨ m.isSummary = false := by
  unfold readmeStep at h
  split at h
  · split at h
    · simp only [List.mem_append, List.mem_singleton] at h
      rcases h with h | rfl
      · exact Or.inl h
      · exact Or.inr rfl
    · split at h
      · simp only [List.mem_append, List.mem_singleton] at h
        rcases h with h | rfl
        · exact Or.inl h
        · exact Or.inr rfl
      · simp only [List.mem_append] at h
        rcases h with h | h
        · exact Or.inl h
        · right
          rcases v with _ | _ <;> simp_all [Msg.isSummary]
  · exact Or.inl h

theorem copyOneLicense_msgs_shape (k : String) (pd od : Path) (v : Bool) (st : PDState)
    (f : String) {m : Msg} (h : m ∈ (copyOneLicense k pd od v st f).msgs) :
    m ∈ st.msgs ∨ m.isSummary = false := by
  unfold copyOneLicense at h
  split at h
  · simp only [List.mem_append, List.mem_singleton] at h
    rcases h with h | rfl
    · exact Or.inl h
    · exact Or.inr rfl
  · split at h
    · simp only [List.mem_append, List.mem_singleton] at h
      rcases h with h | rfl
      · exact Or.inl h
      · exact Or.inr rfl
    · simp only [List.mem_append] at h
      rcases h with h | h
      · exact Or.inl h
      · right
        rcases v with _ | _ <;> simp_all [Msg.isSummary]

theorem copyLicensesFold_msgs_shape (k : String) (pd od : Path) (v : Bool) :
    ∀ (lf : List String) (st : PDState) {m : Msg},
      m ∈ (lf.foldl (copyOneLicense k pd od v) st).msgs →
      m ∈ st.msgs ∨ m.isSummary = false
  | [], st, m, h => Or.inl h
  | f :: fl, st, m, h => by
    rw [List.foldl_cons] at h
    rcases copyLicensesFold_msgs_shape k pd od v fl _ h with h' | h'
    · exact copyOneLicense_msgs_shape k pd od v st f h'
    · exact Or.inr h'

theorem processDependency_msgs_no_summary (pr : Path) (k : String) (out : Path) (v : Bool)
    (fs : FS) {m : Msg} (h : m ∈ (processDependency pr k out v fs).msgs) :
    m.isSummary = false := by
  unfold processDependency noFilesStep licenseStep at h
  split_ifs at h with hc
  · simp only [List.mem_append, List.mem_singleton] at h
    rcases h with h | rfl
    · rcases copyLicensesFold_msgs_shape k (pkgDirOf pr k) (outDirOf out k) v _ _ h with
        h' | h'
      · rcases readmeStep_msgs_shape k _ _ v _ h' with h'' | h''
        · simp at h''
        · exact h''
      · exact h'
    · rfl
  · rcases copyLicensesFold_msgs_shape k (pkgDirOf pr k) (outDirOf out k) v _ _ h with
      h' | h'
    · rcases readmeStep_msgs_shape k _ _ v _ h' with h'' | h''
      · simp at h''
      · exact h''
    · exact h'

theorem depLoop_msgs_no_summary (pr out : Path) (v : Bool) :
    ∀ (ks : List String) (fs : FS) {m : Msg},
      m ∈ (depLoop pr out v ks fs).msgs → m.isSummary = false
  | [], _, m, h => by simp [depLoop] at h
  | k :: ks, fs, m, h => by
    rw [depLoop_cons] at h
    simp only [List.mem_append] at h
    rcases h with h | h
    · exact processDependency_msgs_no_summary pr k out v fs h
    · exact depLoop_msgs_no_summary pr out v ks _ h

theorem mem_keys_of_lookup {l : List (Path × List Nat)} {p : Path} {c : List Nat}
    (h : lookupFile l p = some c) : p ∈ l.map Prod.fst := by
  induction l with
  | nil => simp [lookupFile] at h
  | cons e rest ih =>
    obtain ⟨q, d⟩ := e
    by_cases hq : q = p
    · simp [hq]
    · simp only [lookupFile, if_neg hq] at h
      simp [ih h]

theorem noFilesStep_msgs_ext (k : String) (v : Bool) (st : PDState) {m : Msg}
    (h : m ∈ st.msgs) : m ∈ (noFilesStep k v st).msgs := by
  unfold noFilesStep
  split_ifs
  · simp [h]
  · exact h

/-- A helper: the last element of a list with a single element appended. -/
theorem getLast_append_single {α : Type} (l : List α) (a : α) :
    (l ++ [a]).getLast? = some a := by
  induction l with
  | nil => rfl
  | cons x xs ih =>
    cases xs with
    | nil => rfl
    | cons y ys =>
      show (x :: y :: (ys ++ [a])).getLast? = some a
      rw [List.getLast?_cons_cons]
      exact ih

/-! ## Fixtures for the witnesses -/

/-! ## Claims -/

/-- C3: the process exits with code 0 on success (including the
zero-dependency case) and with code 1 exactly when reading or parsing
`package.json` fails; per-package failures (encoded in the `readFails` and
`writeFails` oracles of an arbitrary filesystem) never make the exit code
nonzero. -/
theorem C3_exit_code (pr : Path) (parseJson : List Nat → Option PackageJson)
    (outdir : Path) (v : Bool) (fs : FS) :
    (mainRun pr parseJson outdir v fs).1 =
      if (readManifest pr parseJson fs).isSome then 0 else 1 := by
  unfold mainRun
  cases hm : readManifest pr parseJson fs with
  | none =>
    rw [extract_err hm]
    simp
  | some pj =>
    by_cases hk : mergedKeys (pj.dependencies.map Prod.fst)
        (pj.devDependencies.map Prod.fst) = []
    · rw [extract_empty hm hk]
      simp
    · rw [extract_nonempty hm hk]
      simp

/-- C5: when the merged dependency set is empty the run succeeds with exit
code 0, the filesystem is returned unchanged (no output directory is
created), no package is processed, and the console output is exactly one
informational line when verbose and nothing otherwise. -/
theorem C5_empty_union (pr : Path) (parseJson : List Nat → Option PackageJson)
    (outdir : Path) (v : Bool) (fs : FS) (pj : PackageJson)
    (hm : readManifest pr parseJson fs = some pj)
    (hk : mergedKeys (pj.dependencies.map Prod.fst) (pj.devDependencies.map Prod.fst) = []) :
    extractNpmReadmes pr parseJson outdir v fs =
      .ok ⟨fs, if v then [Msg.noDeps] else [], 0, 0, []⟩ ∧
    (mainRun pr parseJson outdir v fs).1 = 0 := by
  refine ⟨extract_empty hm hk, ?_⟩
  unfold mainRun
  rw [extract_empty hm hk]

/-- Witness for C5 at a concrete empty manifest, in both verbosity modes. -/
theorem C5_empty_union_witness :
    (extractNpmReadmes [] parseEmptyPJ ["docs-deps"] true fsManifestOnly =
        .ok ⟨fsManifestOnly, [Msg.noDeps], 0, 0, []⟩ ∧
      (mainRun [] parseEmptyPJ ["docs-deps"] true fsManifestOnly).1 = 0) ∧
    (extractNpmReadmes [] parseEmptyPJ ["docs-deps"] false fsManifestOnly =
        .ok ⟨fsManifestOnly, [], 0, 0, []⟩ ∧
      (mainRun [] parseEmptyPJ ["docs-deps"] false fsManifestOnly).1 = 0) := by
  have h1 := C5_empty_union [] parseEmptyPJ ["docs-deps"] true fsManifestOnly ⟨[], []⟩
    rfl rfl
  have h2 := C5_empty_union [] parseEmptyPJ ["docs-deps"] false fsManifestOnly ⟨[], []⟩
    rfl rfl
  exact ⟨⟨h1.1, h1.2⟩, ⟨h2.1, h2.2⟩⟩

/-- C4: the set of processed package names is the union of the key sets of
`dependencies` and `devDependencies` (missing fields are empty lists), and a
name present in both is processed exactly once per run. -/
theorem C4_merged_union (pr : Path) (parseJson : List Nat → Option PackageJson)
    (outdir : Path) (v : Bool) (fs : FS) (pj : PackageJson)
    (hm : readManifest pr parseJson fs = some pj) :
    ∃ r, extractNpmReadmes pr parseJson outdir v fs = .ok r ∧
      r.procd = mergedKeys (pj.dependencies.map Prod.fst) (pj.devDependencies.map Prod.fst) ∧
      r.procd.Nodup ∧
      (∀ k, k ∈ r.procd ↔
        k ∈ pj.dependencies.map Prod.fst ∨ k ∈ pj.devDependencies.map Prod.fst) ∧
      (∀ k, k ∈ pj.dependencies.map Prod.fst ∨ k ∈ pj.devDependencies.map Prod.fst →
        r.procd.count k = 1) := by
  have main : ∀ r : RunRes, extractNpmReadmes pr parseJson outdir v fs = .ok r →
      r.procd = mergedKeys (pj.dependencies.map Prod.fst) (pj.devDependencies.map Prod.fst) →
      r.procd.Nodup ∧
      (∀ k, k ∈ r.procd ↔
        k ∈ pj.dependencies.map Prod.fst ∨ k ∈ pj.devDependencies.map Prod.fst) ∧
      (∀ k, k ∈ pj.dependencies.map Prod.fst ∨ k ∈ pj.devDependencies.map Prod.fst →
        r.procd.count k = 1) := by
    intro r _ hp
    refine ⟨hp ▸ mergedKeys_nodup _ _, fun k => by rw [hp, mem_mergedKeys], ?_⟩
    intro k hk
    refine List.count_eq_one_of_mem (hp ▸ mergedKeys_nodup _ _) ?_
    rw [hp, mem_mergedKeys]
    exact hk
  by_cases hk : mergedKeys (pj.dependencies.map Prod.fst)
      (pj.devDependencies.map Prod.fst) = []
  · refine ⟨_, extract_empty hm hk, ?_, main _ (extract_empty hm hk) ?_⟩
    · show ([] : List String) = _
      rw [hk]
    · show ([] : List String) = _
      rw [hk]
  · have hpr : (depLoop pr (pr ++ outdir) v
        (mergedKeys (pj.dependencies.map Prod.fst) (pj.devDependencies.map Prod.fst))
        (mkdirRec fs (pr ++ outdir))).procd =
      mergedKeys (pj.dependencies.map Prod.fst) (pj.devDependencies.map Prod.fst) :=
      depLoop_procd pr (pr ++ outdir) v _ _
    exact ⟨_, extract_nonempty hm hk, hpr, main _ (extract_nonempty hm hk) hpr⟩

/-- Witness for C4: a package listed in both `dependencies` and
`devDependencies` is processed exactly once. -/
theorem C4_merged_union_witness :
    ∃ r, extractNpmReadmes [] parseBothPJ ["docs-deps"] false fsManifestOnly = .ok r ∧
      r.procd = ["a", "b", "c"] ∧ r.procd.count "a" = 1 := by
  obtain ⟨r, hr, hp, _, _, hcount⟩ :=
    C4_merged_union [] parseBothPJ ["docs-deps"] false fsManifestOnly pjBoth rfl
  refine ⟨r, hr, ?_, hcount "a" (by decide)⟩
  rw [hp]
  decide

/-- C10: in a run that processes at least one package, every package is
classified exactly once (copied when its file count is positive, otherwise
skipped), so the two counters sum to the number of distinct package names,
and exactly one summary line — carrying both counters and the output path —
is printed, after all other output. -/
theorem C10_summary (pr : Path) (parseJson : List Nat → Option PackageJson)
    (outdir : Path) (v : Bool) (fs : FS) (pj : PackageJson)
    (hm : readManifest pr parseJson fs = some pj)
    (hk : mergedKeys (pj.dependencies.map Prod.fst) (pj.devDependencies.map Prod.fst) ≠ []) :
    ∃ r, extractNpmReadmes pr parseJson outdir v fs = .ok r ∧
      r.copied + r.skipped =
        (mergedKeys (pj.dependencies.map Prod.fst) (pj.devDependencies.map Prod.fst)).length ∧
      (mergedKeys (pj.dependencies.map Prod.fst) (pj.devDependencies.map Prod.fst)).Nodup ∧
      r.msgs.getLast? = some (.summary r.copied r.skipped (pr ++ outdir)) ∧
      r.msgs.filter Msg.isSummary = [.summary r.copied r.skipped (pr ++ outdir)] := by
  refine ⟨_, extract_nonempty hm hk, ?_, mergedKeys_nodup _ _, ?_, ?_⟩
  · exact depLoop_counts pr (pr ++ outdir) v _ _
  · exact getLast_append_single _ _
  · rw [List.filter_append]
    have h1 : (depLoop pr (pr ++ outdir) v
        (mergedKeys (pj.dependencies.map Prod.fst) (pj.devDependencies.map Prod.fst))
        (mkdirRec fs (pr ++ outdir))).msgs.filter Msg.isSummary = [] := by
      rw [List.filter_eq_nil_iff]
      intro m hmem
      rw [depLoop_msgs_no_summary pr (pr ++ outdir) v _ _ hmem]
      simp
    rw [h1]
    rfl

/-- Witness for C10 at a one-package manifest. -/
theorem C10_summary_witness :
    ∃ r, extractNpmReadmes [] parseOnePJ ["docs-deps"] false fsOnePkg = .ok r ∧
      r.copied + r.skipped = 1 ∧
      r.msgs.getLast? = some (.summary r.copied r.skipped ["docs-deps"]) := by
  obtain ⟨r, hr, hcnt, _, hlast, _⟩ :=
    C10_summary [] parseOnePJ ["docs-deps"] false fsOnePkg ⟨[("a", "1.0.0")], []⟩
      rfl (by decide)
  exact ⟨r, hr, hcnt, hlast⟩

/-- C6: for every package, the output subdirectory `<outdir>/<name>` and all
its parent directories exist after `processDependency`, for every filesystem —
in particular even when nothing is copied and even when the package's
`node_modules` directory does not exist. -/
theorem C6_outdir_created (pr : Path) (k : String) (out : Path) (v : Bool) (fs : FS) :
    outDirOf out k ∈ (processDependency pr k out v fs).fs.dirs ∧
    ∀ d ∈ dirChain (outDirOf out k), d ∈ (processDependency pr k out v fs).fs.dirs := by
  have hall : ∀ d ∈ dirChain (outDirOf out k), d ∈ (processDependency pr k out v fs).fs.dirs := by
    intro d hd
    unfold processDependency
    rw [noFilesStep_fs_eq]
    unfold licenseStep
    rw [copyLicensesFold_dirs_eq, readmeStep_dirs_eq]
    show d ∈ (mkdirRec fs (outDirOf out k)).dirs
    unfold mkdirRec
    exact mem_foldl_addDir.mpr (Or.inr hd)
  refine ⟨hall _ (self_mem_dirChain ?_), hall⟩
  simp [outDirOf]

/-- Witness for C6: the output subdirectory is created on an entirely empty
filesystem (no manifest, no `node_modules`). -/
theorem C6_outdir_created_witness :
    ["docs-deps", "a"] ∈ (processDependency [] "a" ["docs-deps"] false fsBare).fs.dirs ∧
    ["docs-deps"] ∈ (processDependency [] "a" ["docs-deps"] false fsBare).fs.dirs := by
  refine ⟨(C6_outdir_created [] "a" ["docs-deps"] false fsBare).1,
    (C6_outdir_created [] "a" ["docs-deps"] false fsBare).2 ["docs-deps"] ?_⟩
  decide

/-- C8: when the license search fails because the package directory is
missing, the match set is empty rather than an error; `processDependency`
still returns normally with just the README count (at most one file), and a
package with nothing to copy is classified as skipped. -/
theorem C8_search_failure (pr : Path) (k : String) (out : Path) (v : Bool) (fs : FS)
    (hd : pkgDirOf pr k ∉ fs.dirs)
    (hchain : pkgDirOf pr k ∉ dirChain (outDirOf out k)) :
    listDir fs (pkgDirOf pr k) = none ∧
    getLicenseFiles fs (pkgDirOf pr k) = [] ∧
    (processDependency pr k out v fs).count ≤ 1 ∧
    ((lookupFile fs.files (pkgDirOf pr k ++ ["README.md"]) = none ∧
        pkgDirOf pr k ++ ["README.md"] ∉ fs.dirs ∧
        pkgDirOf pr k ++ ["README.md"] ∉ dirChain (outDirOf out k)) →
      (processDependency pr k out v fs).count = 0 ∧
      (depLoop pr out v [k] fs).skipped = 1) := by
  have hd1 : pkgDirOf pr k ∉ (readmeStep k (pkgDirOf pr k ++ ["README.md"])
      (outDirOf out k ++ ["README.md"]) v
      ⟨mkdirRec fs (outDirOf out k), [], 0⟩).fs.dirs := by
    rw [readmeStep_dirs_eq]
    show pkgDirOf pr k ∉ (mkdirRec fs (outDirOf out k)).dirs
    unfold mkdirRec
    intro hmem
    rcases mem_foldl_addDir.mp hmem with h | h
    · exact hd h
    · exact hchain h
  have hlf : getLicenseFiles (readmeStep k (pkgDirOf pr k ++ ["README.md"])
      (outDirOf out k ++ ["README.md"]) v
      ⟨mkdirRec fs (outDirOf out k), [], 0⟩).fs (pkgDirOf pr k) = [] :=
    getLicenseFiles_of_listDir_none (listDir_none hd1)
  have hcount : (processDependency pr k out v fs).count =
      (readmeStep k (pkgDirOf pr k ++ ["README.md"])
        (outDirOf out k ++ ["README.md"]) v
        ⟨mkdirRec fs (outDirOf out k), [], 0⟩).count := by
    unfold processDependency
    rw [noFilesStep_count_eq]
    unfold licenseStep
    rw [hlf]
    rfl
  refine ⟨listDir_none hd, getLicenseFiles_of_listDir_none (listDir_none hd), ?_, ?_⟩
  · rw [hcount]
    exact readmeStep_count_le k _ _ v _
  · rintro ⟨hre, hred, hrec⟩
    have hfe : fileExists (mkdirRec fs (outDirOf out k)) (pkgDirOf pr k ++ ["README.md"]) =
        false := by
      unfold fileExists
      show ((lookupFile fs.files (pkgDirOf pr k ++ ["README.md"])).isSome || _) = false
      rw [hre]
      simp only [Option.isSome_none, Bool.false_or, decide_eq_false_iff_not]
      show pkgDirOf pr k ++ ["README.md"] ∉ (mkdirRec fs (outDirOf out k)).dirs
      unfold mkdirRec
      intro hmem
      rcases mem_foldl_addDir.mp hmem with h | h
      · exact hred h
      · exact hrec h
    have hc0 : (processDependency pr k out v fs).count = 0 := by
      rw [hcount, readmeStep_absent k _ _ v _ hfe]
    refine ⟨hc0, ?_⟩
    rw [depLoop_cons]
    show (if (processDependency pr k out v fs).count > 0 then 0 else 1) +
      (depLoop pr out v [] (processDependency pr k out v fs).fs).skipped = 1
    rw [hc0]
    rfl

/-- Witness for C8: a dependency whose `node_modules` directory is absent on
an empty filesystem. -/
theorem C8_search_failure_witness :
    listDir fsBare ["node_modules", "foo"] = none ∧
    getLicenseFiles fsBare ["node_modules", "foo"] = [] ∧
    (processDependency [] "foo" ["docs-deps"] false fsBare).count = 0 ∧
    (depLoop [] ["docs-deps"] false ["foo"] fsBare).skipped = 1 := by
  obtain ⟨h1, h2, _, h4⟩ :=
    C8_search_failure [] "foo" ["docs-deps"] false fsBare (by decide) (by decide)
  obtain ⟨h5, h6⟩ := h4 ⟨rfl, by decide, by decide⟩
  exact ⟨h1, h2, h5, h6⟩

/-- C2 (amended): if `node_modules/<name>/README.md` exists with content that
is valid UTF-8 (the encoding of a sequence of Unicode scalar values) and both
the read and the write succeed, the written `<outdir>/<name>/README.md` has
exactly the source bytes. (As stated for arbitrary bytes the claim fails:
the copy goes through UTF-8 decoding with U+FFFD replacement — see the
counterexample.) -/
theorem C2_readme_roundtrip (pr : Path) (k : String) (out : Path) (v : Bool) (fs : FS)
    (s : List Nat) (hs : ∀ x ∈ s, ValidScalar x)
    (hex : lookupFile fs.files (pkgDirOf pr k ++ ["README.md"]) = some (encodeUtf8 s))
    (hnr : pkgDirOf pr k ++ ["README.md"] ∉ fs.readFails)
    (hnw : outDirOf out k ++ ["README.md"] ∉ fs.writeFails) :
    lookupFile (processDependency pr k out v fs).fs.files
      (outDirOf out k ++ ["README.md"]) = some (encodeUtf8 s) := by
  unfold processDependency
  rw [noFilesStep_fs_eq]
  unfold licenseStep
  have hr1 := readmeStep_success k (pkgDirOf pr k ++ ["README.md"])
    (outDirOf out k ++ ["README.md"]) v ⟨mkdirRec fs (outDirOf out k), [], 0⟩
    (encodeUtf8 s) hex hnr hnw
  rw [hr1]
  rw [copyLicensesFold_files_frame k (pkgDirOf pr k) (outDirOf out k) v _ _
    (fun f hf heq => isLicense_ne_readme (getLicenseFiles_isLicense hf) (concat_inj heq).2)]
  show lookupFile (setFile (mkdirRec fs (outDirOf out k)).files
    (outDirOf out k ++ ["README.md"]) (encodeUtf8 (decodeUtf8 (encodeUtf8 s))))
    (outDirOf out k ++ ["README.md"]) = some (encodeUtf8 s)
  rw [decodeUtf8_encodeUtf8 s hs, lookupFile_setFile_self]

/-- Witness for C2 at a two-byte ASCII README. -/
theorem C2_readme_roundtrip_witness :
    lookupFile (processDependency [] "a" ["docs-deps"] false fsReadmeValid).fs.files
      ["docs-deps", "a", "README.md"] = some (encodeUtf8 [104, 105]) := by
  exact C2_readme_roundtrip [] "a" ["docs-deps"] false fsReadmeValid [104, 105]
    (by decide) (by decide) (by decide) (by decide)

/-- Counterexample to C2 as stated: for the one-byte README content `0xFF`
(not valid UTF-8) the copy succeeds (count is 1) but the written bytes are
the U+FFFD replacement sequence, not the source byte. -/
theorem C2_readme_counterexample :
    (processDependency [] "a" ["docs-deps"] false fsReadmeInvalid).count = 1 ∧
    lookupFile (processDependency [] "a" ["docs-deps"] false fsReadmeInvalid).fs.files
      ["docs-deps", "a", "README.md"] = some [239, 191, 189] ∧
    lookupFile (processDependency [] "a" ["docs-deps"] false fsReadmeInvalid).fs.files
      ["docs-deps", "a", "README.md"] ≠
      lookupFile fsReadmeInvalid.files ["node_modules", "a", "README.md"] := by
  refine ⟨by decide, by decide, ?_⟩
  decide

/-- C1: license matching is case-insensitive on the prefix `licen[cs]e` and
accepts any suffix: any entry of the package directory whose lowercased name
starts with `license` or `licence`, and whose read and write succeed, is in
the match set of the license search and is copied (UTF-8 round-tripped) to
the package's output subdirectory. -/
theorem C1_license_matching (pr : Path) (k : String) (out : Path) (v : Bool) (fs : FS)
    (fname : String) (bytes : List Nat)
    (hmatch : lowerStarts fname "license" = true ∨ lowerStarts fname "licence" = true)
    (hdir : pkgDirOf pr k ∈ fs.dirs)
    (hfile : lookupFile fs.files (pkgDirOf pr k ++ [fname]) = some bytes)
    (hnr : pkgDirOf pr k ++ [fname] ∉ fs.readFails)
    (hnw : outDirOf out k ++ [fname] ∉ fs.writeFails) :
    fname ∈ getLicenseFiles fs (pkgDirOf pr k) ∧
    lookupFile (processDependency pr k out v fs).fs.files (outDirOf out k ++ [fname]) =
      some (encodeUtf8 (decodeUtf8 bytes)) := by
  have hlic : isLicenseName fname = true := by
    unfold isLicenseName
    rcases hmatch with h | h <;> simp [h]
  have hchild : fname ∈ childNames fs (pkgDirOf pr k) :=
    mem_childNames.mpr (Or.inl (mem_keys_of_lookup hfile))
  refine ⟨mem_getLicenseFiles hdir hchild hlic, ?_⟩
  unfold processDependency
  rw [noFilesStep_fs_eq]
  unfold licenseStep
  -- the state after the README stage
  have hop : outDirOf out k ++ ["README.md"] ≠ pkgDirOf pr k ++ [fname] := by
    intro heq
    exact isLicense_ne_readme hlic (concat_inj heq).2.symm
  have hfile1 : lookupFile (readmeStep k (pkgDirOf pr k ++ ["README.md"])
      (outDirOf out k ++ ["README.md"]) v
      ⟨mkdirRec fs (outDirOf out k), [], 0⟩).fs.files (pkgDirOf pr k ++ [fname]) =
      some bytes := by
    rw [readmeStep_files_frame k _ _ v _ hop]
    exact hfile
  have hdir1 : pkgDirOf pr k ∈ (readmeStep k (pkgDirOf pr k ++ ["README.md"])
      (outDirOf out k ++ ["README.md"]) v
      ⟨mkdirRec fs (outDirOf out k), [], 0⟩).fs.dirs := by
    rw [readmeStep_dirs_eq]
    show pkgDirOf pr k ∈ (mkdirRec fs (outDirOf out k)).dirs
    unfold mkdirRec
    exact mem_foldl_addDir.mpr (Or.inl hdir)
  have hchild1 : fname ∈ childNames (readmeStep k (pkgDirOf pr k ++ ["README.md"])
      (outDirOf out k ++ ["README.md"]) v
      ⟨mkdirRec fs (outDirOf out k), [], 0⟩).fs (pkgDirOf pr k) :=
    mem_childNames.mpr (Or.inl (mem_keys_of_lookup hfile1))
  exact copyLicensesFold_success k (pkgDirOf pr k) (outDirOf out k) v _ _ fname bytes
    (mem_getLicenseFiles hdir1 hchild1 hlic) (getLicenseFiles_nodup _ _) hfile1
    (by rw [readmeStep_readFails_eq]; exact hnr)
    (by rw [readmeStep_writeFails_eq]; exact hnw)

/-- Witness for C1: in one package, both `license.md` and `LICENSE` are
matched and copied. -/
theorem C1_license_matching_witness :
    ("license.md" ∈ getLicenseFiles fsTwoLicenses ["node_modules", "a"] ∧
      lookupFile (processDependency [] "a" ["docs-deps"] false fsTwoLicenses).fs.files
        ["docs-deps", "a", "license.md"] = some (encodeUtf8 (decodeUtf8 [76]))) ∧
    ("LICENSE" ∈ getLicenseFiles fsTwoLicenses ["node_modules", "a"] ∧
      lookupFile (processDependency [] "a" ["docs-deps"] false fsTwoLicenses).fs.files
        ["docs-deps", "a", "LICENSE"] = some (encodeUtf8 (decodeUtf8 [77]))) := by
  exact ⟨C1_license_matching [] "a" ["docs-deps"] false fsTwoLicenses "license.md" [76]
      (Or.inl (by decide)) (by decide) (by decide) (by decide) (by decide),
    C1_license_matching [] "a" ["docs-deps"] false fsTwoLicenses "LICENSE" [77]
      (Or.inl (by decide)) (by decide) (by decide) (by decide) (by decide)⟩

/-- C7: a failure while reading or while writing the package's `README.md` is
logged and does not abort the batch — the license step of the same package
still runs; and a failure, on reading or on writing, of one license file is
logged and does not prevent another matched license file from being copied. -/
theorem C7_failures_continue (pr : Path) (k : String) (out : Path) (v : Bool) (fs : FS)
    (f g : String) (rb fb gb : List Nat)
    (hre : lookupFile fs.files (pkgDirOf pr k ++ ["README.md"]) = some rb)
    (hrf : pkgDirOf pr k ++ ["README.md"] ∈ fs.readFails ∨
      outDirOf out k ++ ["README.md"] ∈ fs.writeFails)
    (hdir : pkgDirOf pr k ∈ fs.dirs)
    (hlf : isLicenseName f = true)
    (hlg : isLicenseName g = true)
    (hffile : lookupFile fs.files (pkgDirOf pr k ++ [f]) = some fb)
    (hfnr : pkgDirOf pr k ++ [f] ∉ fs.readFails)
    (hfnw : outDirOf out k ++ [f] ∉ fs.writeFails)
    (hgfile : lookupFile fs.files (pkgDirOf pr k ++ [g]) = some gb)
    (hgr : pkgDirOf pr k ++ [g] ∈ fs.readFails ∨
      outDirOf out k ++ [g] ∈ fs.writeFails) :
    Msg.failedReadme k ∈ (processDependency pr k out v fs).msgs ∧
    Msg.failedLicense g k ∈ (processDependency pr k out v fs).msgs ∧
    lookupFile (processDependency pr k out v fs).fs.files (outDirOf out k ++ [f]) =
      some (encodeUtf8 (decodeUtf8 fb)) := by
  have hfe : fileExists (mkdirRec fs (outDirOf out k)) (pkgDirOf pr k ++ ["README.md"]) =
      true := by
    unfold fileExists
    show ((lookupFile fs.files (pkgDirOf pr k ++ ["README.md"])).isSome || _) = true
    rw [hre]
    simp
  have hstep := readmeStep_fail k (pkgDirOf pr k ++ ["README.md"])
    (outDirOf out k ++ ["README.md"]) v ⟨mkdirRec fs (outDirOf out k), [], 0⟩ hfe hrf
  have hdir1 : pkgDirOf pr k ∈ (mkdirRec fs (outDirOf out k)).dirs := by
    unfold mkdirRec
    exact mem_foldl_addDir.mpr (Or.inl hdir)
  have hfmem : f ∈ getLicenseFiles (mkdirRec fs (outDirOf out k)) (pkgDirOf pr k) :=
    mem_getLicenseFiles hdir1 (mem_childNames.mpr (Or.inl (mem_keys_of_lookup hffile))) hlf
  have hgmem : g ∈ getLicenseFiles (mkdirRec fs (outDirOf out k)) (pkgDirOf pr k) :=
    mem_getLicenseFiles hdir1 (mem_childNames.mpr (Or.inl (mem_keys_of_lookup hgfile))) hlg
  unfold processDependency
  unfold licenseStep
  rw [hstep]
  refine ⟨?_, ?_, ?_⟩
  · refine noFilesStep_msgs_ext k v _ (copyLicensesFold_msgs_ext k _ _ v _ _ ?_)
    simp
  · refine noFilesStep_msgs_ext k v _ ?_
    exact copyLicensesFold_failure_msg k (pkgDirOf pr k) (outDirOf out k) v _ _ g hgmem hgr
  · rw [noFilesStep_fs_eq]
    exact copyLicensesFold_success k (pkgDirOf pr k) (outDirOf out k) v _ _ f fb
      hfmem (getLicenseFiles_nodup _ _) hffile hfnr hfnw

/-- Witness for C7, in both failure modes: on `fsC7` the README read and one
license read fail, on `fsC7w` the README write and one license write fail; in
each case both failures are logged and the other license file is still
copied. -/
theorem C7_failures_continue_witness :
    (Msg.failedReadme "a" ∈ (processDependency [] "a" ["docs-deps"] false fsC7).msgs ∧
      Msg.failedLicense "license.md" "a" ∈
        (processDependency [] "a" ["docs-deps"] false fsC7).msgs ∧
      lookupFile (processDependency [] "a" ["docs-deps"] false fsC7).fs.files
        ["docs-deps", "a", "LICENSE"] = some (encodeUtf8 (decodeUtf8 [77]))) ∧
    (Msg.failedReadme "a" ∈ (processDependency [] "a" ["docs-deps"] false fsC7w).msgs ∧
      Msg.failedLicense "license.md" "a" ∈
        (processDependency [] "a" ["docs-deps"] false fsC7w).msgs ∧
      lookupFile (processDependency [] "a" ["docs-deps"] false fsC7w).fs.files
        ["docs-deps", "a", "LICENSE"] = some (encodeUtf8 (decodeUtf8 [77]))) := by
  exact ⟨C7_failures_continue [] "a" ["docs-deps"] false fsC7 "LICENSE" "license.md"
      [72] [77] [78] (by decide) (Or.inl (by decide)) (by decide) (by decide) (by decide)
      (by decide) (by decide) (by decide) (by decide) (Or.inl (by decide)),
    C7_failures_continue [] "a" ["docs-deps"] false fsC7w "LICENSE" "license.md"
      [72] [77] [78] (by decide) (Or.inr (by decide)) (by decide) (by decide) (by decide)
      (by decide) (by decide) (by decide) (by decide) (Or.inr (by decide))⟩

/-- C9: with unchanged inputs and an output root that is prefix-incomparable
with `<projectRoot>/node_modules`, running the extraction twice in sequence
yields the same filesystem after the second run as after the first (the
second run re-reads the same sources and overwrites each output file with
identical content). -/
theorem C9_idempotent (pr : Path) (parseJson : List Nat → Option PackageJson)
    (outdir : Path) (v : Bool) (fs0 : FS)
    (HS : ∀ q, leads (nmRoot pr) q → ¬ leads (pr ++ outdir) q)
    (r1 r2 : RunRes)
    (h1 : extractNpmReadmes pr parseJson outdir v fs0 = .ok r1)
    (h2 : extractNpmReadmes pr parseJson outdir v r1.fs = .ok r2) :
    r2.fs = r1.fs := by
  cases hm : readManifest pr parseJson fs0 with
  | none =>
    rw [extract_err hm] at h1
    cases h1
  | some pj =>
    by_cases hk : mergedKeys (pj.dependencies.map Prod.fst)
        (pj.devDependencies.map Prod.fst) = []
    · rw [extract_empty hm hk] at h1
      injection h1 with h1'
      have hfs : r1.fs = fs0 := by rw [← h1']
      have hm' : readManifest pr parseJson r1.fs = some pj := by rw [hfs]; exact hm
      rw [extract_empty hm' hk] at h2
      injection h2 with h2'
      exact (congrArg RunRes.fs h2').symm
    · rw [extract_nonempty hm hk] at h1
      injection h1 with h1'
      have hr1fs : r1.fs = (depLoop pr (pr ++ outdir) v
          (mergedKeys (pj.dependencies.map Prod.fst) (pj.devDependencies.map Prod.fst))
          (mkdirRec fs0 (pr ++ outdir))).fs := by
        rw [← h1']
      have hm0 : NmSame pr fs0 (mkdirRec fs0 (pr ++ outdir)) :=
        (NmSame.refl pr fs0).mkdir (sep_not_nm_chain_out HS)
      have hspec := depLoop_spec pr (pr ++ outdir) v fs0 HS
        (mergedKeys (pj.dependencies.map Prod.fst) (pj.devDependencies.map Prod.fst))
        (mkdirRec fs0 (pr ++ outdir)) hm0
      have hfs1 : r1.fs = ⟨applyWrites fs0.files
          (loopEff pr (pr ++ outdir) v fs0
            (mergedKeys (pj.dependencies.map Prod.fst) (pj.devDependencies.map Prod.fst))).writes,
          outChains (pr ++ outdir)
            (mergedKeys (pj.dependencies.map Prod.fst) (pj.devDependencies.map Prod.fst))
            ((dirChain (pr ++ outdir)).foldl addDir fs0.dirs),
          fs0.readFails, fs0.writeFails⟩ := by
        rw [hr1fs, hspec]
        rfl
      have hns : NmSame pr fs0 r1.fs := by
        rw [hr1fs]
        exact NmSame_depLoop pr (pr ++ outdir) v fs0 HS _ hm0
      have hm2 : readManifest pr parseJson r1.fs = some pj := by
        rw [readManifest_eq_of pr parseJson ?_ hns.rf]
        · exact hm
        · rw [hfs1]
          show lookupFile (applyWrites fs0.files _) (pr ++ ["package.json"]) =
            lookupFile fs0.files (pr ++ ["package.json"])
          apply lookupFile_applyWrites_notmem
          intro hmem
          obtain ⟨pc, hpc, heq⟩ := List.mem_map.mp hmem
          obtain ⟨k', _, ff, hfp⟩ := loopEff_writes_shape hpc
          have hlen := congrArg List.length (heq ▸ hfp)
          simp [outDirOf, List.length_append] at hlen
      rw [extract_nonempty hm2 hk] at h2
      injection h2 with h2'
      have hr2fs : r2.fs = (depLoop pr (pr ++ outdir) v
          (mergedKeys (pj.dependencies.map Prod.fst) (pj.devDependencies.map Prod.fst))
          (mkdirRec r1.fs (pr ++ outdir))).fs := by
        rw [← h2']
      have hchain1 : ∀ d ∈ dirChain (pr ++ outdir), d ∈ r1.fs.dirs := by
        intro d hd
        rw [hfs1]
        show d ∈ outChains (pr ++ outdir) _ ((dirChain (pr ++ outdir)).foldl addDir fs0.dirs)
        exact mem_outChains.mpr (Or.inl (mem_foldl_addDir.mpr (Or.inr hd)))
      rw [mkdirRec_noop hchain1] at hr2fs
      have hstab := depLoop_stable pr (pr ++ outdir) v fs0 HS
        (mergedKeys (pj.dependencies.map Prod.fst) (pj.devDependencies.map Prod.fst))
        r1.fs hns ?_ ?_
      · rw [hr2fs, hstab]
      · intro k' hk' pc hpc
        rw [hfs1]
        show lookupFile (applyWrites fs0.files _) pc.1 = some pc.2
        exact lookupFile_applyWrites_mem _
          (loopEff_paths_nodup pr (pr ++ outdir) v fs0 (mergedKeys_nodup _ _))
          (mem_loopEff_writes hk' hpc)
      · intro k' hk' d hd
        rw [hfs1]
        show d ∈ outChains (pr ++ outdir) _ ((dirChain (pr ++ outdir)).foldl addDir fs0.dirs)
        exact mem_outChains.mpr (Or.inr ⟨k', hk', hd⟩)

/-- Witness for C9: a concrete one-package project, run twice. -/
theorem C9_idempotent_witness :
    ∃ r1, extractNpmReadmes [] parseC9 ["docs-deps"] false fsC9 = .ok r1 ∧
      ∃ r2, extractNpmReadmes [] parseC9 ["docs-deps"] false r1.fs = .ok r2 ∧
        r2.fs = r1.fs := by
  have HS : ∀ q, leads (nmRoot []) q → ¬ leads (([] : Path) ++ ["docs-deps"]) q := by
    intro q h1 h2
    exact absurd (h1.symm.trans h2) (by decide)
  refine ⟨_, rfl, _, rfl, C9_idempotent [] parseC9 ["docs-deps"] false fsC9 HS _ _ rfl rfl⟩

end DepsDocs
